import Mathlib

set_option maxHeartbeats 1000000

/-!
Verification of the otterdog reconciliation core.

This file gives a shallow embedding of the model layer of otterdog
(`otterdog/models/repository.py`, `otterdog/models/environment.py`,
`otterdog/models/organization_workflow_settings.py`,
`otterdog/providers/github/rest/reference_client.py`): the dynamically
typed field values with the distinguished unset sentinel, per-entity
diff-inclusion predicates, validation, entity-list reconciliation into
live patches, and the to-provider field mappings.  Theorems at the end
settle the specification claims about this code.
-/

namespace Otterdog

/-- Value of a dynamically typed model field: the distinguished UNSET
sentinel (otterdog's marker for a field not specified by the user),
Python `None`, strings, booleans, integers and lists of strings (all
list-valued fields of the modelled entities hold strings). -/
inductive V where
  | unset
  | null
  | str (s : String)
  | bool (b : Bool)
  | int (n : Int)
  | strs (l : List String)
deriving DecidableEq, Repr

/-- Embeds `otterdog.utils.is_unset`: identity check against the UNSET sentinel. -/
def is_unset (v : V) : Bool := v == V.unset

/-- Modelled from the spec: `otterdog.utils.is_set_and_valid` (the utils module is
not part of the sources); the spec distinguishes the unset sentinel ("not
specified") from an explicit `null`; a value is set and valid when it is neither. -/
def is_set_and_valid (v : V) : Bool := !(is_unset v) && v != V.null

/-- Integer content of a value; the modelled code only applies arithmetic
comparisons to integer-valued fields (`wait_timer`). -/
def vint : V → Int
  | V.int n => n
  | _ => 0

/-- Length of a value, as Python `len` on the lists/strings the modelled code
applies it to. -/
def vlen : V → Nat
  | V.strs l => l.length
  | V.str s => s.length
  | _ => 0

/-- Python truthiness of a value; the UNSET marker object has no `__bool__`
and is therefore truthy. -/
def truthy : V → Bool
  | V.unset => true
  | V.null => false
  | V.str s => s ≠ ""
  | V.bool b => b
  | V.int n => n ≠ 0
  | V.strs l => l ≠ []

/-- Lookup in an association list, mirroring a Python dict read
(`d[k]` / `d.get(k)`); keys are unique in all dicts built by the modelled code. -/
def alookup {α : Type} (m : List (String × α)) (k : String) : Option α :=
  (m.find? (fun p => p.1 == k)).map (fun p => p.2)

/-- Membership test `k in d` on a Python dict. -/
def amem {α : Type} (m : List (String × α)) (k : String) : Bool :=
  (alookup m k).isSome

/-- Dict read with default: Python `d.get(k, UNSET)`. -/
def agetD (m : List (String × V)) (k : String) : V :=
  (alookup m k).getD V.unset

/-- Removal of a key from a dict, mirroring `d.pop(k)` on dicts with unique keys. -/
def aerase {α : Type} (m : List (String × α)) (k : String) : List (String × α) :=
  m.filter (fun p => p.1 != k)

/-- Assignment `d[k] = v` on a Python dict: overwrite in place when present,
append otherwise. -/
def aset {α : Type} (m : List (String × α)) (k : String) (v : α) : List (String × α) :=
  if amem m k then m.map (fun p => if p.1 == k then (k, v) else p) else m ++ [(k, v)]

/-- Embeds `otterdog.utils.Change`: a recorded field change from the current
value to the expected value. -/
structure Change where
  from_value : V
  to_value : V
deriving DecidableEq, Repr

/-- Severity of a validation finding (`otterdog.models.FailureType`). -/
inductive FailureType where
  | error
  | warning
  | info
deriving DecidableEq, Repr

/-- Modelled from the spec: `ModelObject.get_difference_from` (the models base
module is not part of the sources).  For each field eligible under the entity's
`include_field_for_diff_computation` predicate (evaluated on the expected
object), the expected and current values are compared; when they differ and the
expected value is not the unset sentinel, a change from the current to the
expected value is recorded under the field name. -/
def get_difference_from (fields : List String) (includeField : String → Bool)
    (getE getC : String → V) : List (String × Change) :=
  (fields.filter (fun f => includeField f && !(is_unset (getE f)) && getE f != getC f)).map
    (fun f => (f, { from_value := getC f, to_value := getE f }))

/-- Embeds the `Environment` dataclass of `otterdog/models/environment.py`:
`id` and `node_id` are external-only provider-assigned fields, `name` is the
key field, the remaining fields are dynamically typed model values. -/
structure Environment where
  id : V := V.unset
  node_id : V := V.unset
  name : String
  wait_timer : V := V.unset
  reviewers : V := V.unset
  deployment_branch_policy : V := V.unset
  branch_policies : V := V.unset
deriving DecidableEq, Repr

namespace Environment

/-- Field access on an environment by field name, as Python attribute lookup. -/
def get (e : Environment) : String → V := fun f =>
  if f = "name" then V.str e.name
  else if f = "wait_timer" then e.wait_timer
  else if f = "reviewers" then e.reviewers
  else if f = "deployment_branch_policy" then e.deployment_branch_policy
  else if f = "branch_policies" then e.branch_policies
  else V.unset

/-- Modelled from the spec: the fields of an environment that diff computation
enumerates (the models base module with the field enumeration is not part of
the sources); external-only provider-assigned fields (`id`, `node_id`) are not
part of user-authored configuration and are not diffed. -/
def diffFields : List String :=
  ["name", "wait_timer", "reviewers", "deployment_branch_policy", "branch_policies"]

/-- Embeds `Environment.include_field_for_diff_computation`: while
`deployment_branch_policy` is not "selected", the `branch_policies` field is
excluded from diff computation. -/
def include_field_for_diff_computation (self : Environment) (field : String) : Bool :=
  if self.deployment_branch_policy != V.str "selected" then
    if field = "branch_policies" then false else true
  else true

/-- Diff between an expected and a current environment, see `get_difference_from`. -/
def get_difference (expected current : Environment) : List (String × Change) :=
  get_difference_from diffFields expected.include_field_for_diff_computation
    expected.get current.get

/-- Embeds `Environment.validate`: an out-of-range `wait_timer` is an ERROR, a
`deployment_branch_policy` outside the allowed set is an ERROR, and a non-empty
`branch_policies` under a policy other than "selected" is a WARNING. -/
def validate (self : Environment) : List (FailureType × String) :=
  (if !(is_unset self.wait_timer)
      && !(decide (0 ≤ vint self.wait_timer) && decide (vint self.wait_timer ≤ 43200)) then
    [(FailureType.error, "wait_timer outside of supported range")]
  else []) ++
  (if is_set_and_valid self.deployment_branch_policy then
    (if !([V.str "all", V.str "protected", V.str "selected"].contains
        self.deployment_branch_policy) then
      [(FailureType.error, "deployment_branch_policy only values all protected selected are allowed")]
    else []) ++
    (if self.deployment_branch_policy != V.str "selected" && decide (0 < vlen self.branch_policies) then
      [(FailureType.warning, "branch_policies is set but deployment_branch_policy is not selected, setting will be ignored")]
    else [])
  else [])

end Environment

/-- Embeds the `OrganizationWorkflowSettings` dataclass of
`otterdog/models/organization_workflow_settings.py`; the inherited
`WorkflowSettings` base fields are untouched by the embedded predicate, whose
fallback to the superclass is abstracted as a parameter. -/
structure OrganizationWorkflowSettings where
  enabled_repositories : V := V.unset
  selected_repositories : V := V.unset
deriving DecidableEq, Repr

namespace OrganizationWorkflowSettings

/-- Embeds `OrganizationWorkflowSettings.include_field_for_diff_computation`;
`superIncl` stands for the `super().include_field_for_diff_computation` call
into the `WorkflowSettings` base class (whose module is not part of the sources). -/
def include_field_for_diff_computation (superIncl : String → Bool)
    (self : OrganizationWorkflowSettings) (field : String) : Bool :=
  if self.enabled_repositories == V.str "none" then
    field == "enabled_repositories"
  else if field == "selected_repositories" then
    self.enabled_repositories == V.str "selected"
  else superIncl field

end OrganizationWorkflowSettings

/-- Modelled from the spec: a repository workflow-settings object
(`otterdog/models/repo_workflow_settings.py` is not part of the sources); the
field value on a repository is either the unset sentinel, null, or an object
whose fields are diffed like any other entity. -/
inductive RepositoryWorkflowSettings where
  | unsetV
  | nullV
  | obj (fields : List (String × V))
deriving DecidableEq, Repr

namespace RepositoryWorkflowSettings

/-- Test corresponding to `is_set_and_valid(self.workflows)`. -/
def is_set_and_valid : RepositoryWorkflowSettings → Bool
  | obj _ => true
  | _ => false

/-- Field access on a workflow-settings object. -/
def get : RepositoryWorkflowSettings → String → V
  | obj fs, f => agetD fs f
  | _, _ => V.unset

end RepositoryWorkflowSettings

/-- Modelled from the spec: a repository webhook, keyed by its URL
(`otterdog/models/repo_webhook.py` is not part of the sources); its non-key
fields are an uninterpreted field dictionary. -/
structure RepositoryWebhook where
  url : String
  fields : List (String × V) := []
deriving DecidableEq, Repr

/-- Modelled from the spec: a repository secret, keyed by its name
(`otterdog/models/repo_secret.py` is not part of the sources). -/
structure RepositorySecret where
  name : String
  fields : List (String × V) := []
deriving DecidableEq, Repr

/-- Modelled from the spec: a branch protection rule, keyed by its pattern
(`otterdog/models/branch_protection_rule.py` is not part of the sources). -/
structure BranchProtectionRule where
  pattern : String
  fields : List (String × V) := []
deriving DecidableEq, Repr

/-- Embeds the `Repository` dataclass of `otterdog/models/repository.py`.
`id` and `node_id` are external-only, `name` is the key field,
`template_repository` is read-only, `aliases`, `post_process_template_content`
and `auto_init` are model-only, and `workflows`, `webhooks`, `secrets`,
`branch_protection_rules` and `environments` are nested models. -/
structure Repository where
  id : V := V.unset
  node_id : V := V.unset
  name : String
  description : V := V.unset
  homepage : V := V.unset
  «private» : V := V.unset
  has_discussions : V := V.unset
  has_issues : V := V.unset
  has_projects : V := V.unset
  has_wiki : V := V.unset
  is_template : V := V.unset
  template_repository : V := V.unset
  topics : V := V.unset
  default_branch : V := V.unset
  allow_rebase_merge : V := V.unset
  allow_merge_commit : V := V.unset
  allow_squash_merge : V := V.unset
  allow_auto_merge : V := V.unset
  delete_branch_on_merge : V := V.unset
  allow_update_branch : V := V.unset
  squash_merge_commit_title : V := V.unset
  squash_merge_commit_message : V := V.unset
  merge_commit_title : V := V.unset
  merge_commit_message : V := V.unset
  archived : V := V.unset
  allow_forking : V := V.unset
  web_commit_signoff_required : V := V.unset
  secret_scanning : V := V.unset
  secret_scanning_push_protection : V := V.unset
  dependabot_alerts_enabled : V := V.unset
  dependabot_security_updates_enabled : V := V.unset
  gh_pages_build_type : V := V.unset
  gh_pages_source_branch : V := V.unset
  gh_pages_source_path : V := V.unset
  workflows : RepositoryWorkflowSettings := RepositoryWorkflowSettings.unsetV
  aliases : List String := []
  post_process_template_content : V := V.unset
  auto_init : V := V.unset
  webhooks : List RepositoryWebhook := []
  secrets : List RepositorySecret := []
  branch_protection_rules : List BranchProtectionRule := []
  environments : List Environment := []
deriving DecidableEq, Repr

namespace Repository

/-- Embeds `Repository.get_all_names`: the key name followed by the configured aliases. -/
def get_all_names (r : Repository) : List String := r.name :: r.aliases

/-- Embeds the `_security_properties` class variable. -/
def security_properties : List String :=
  ["secret_scanning", "secret_scanning_push_protection", "dependabot_security_updates_enabled"]

/-- Embeds the `_unavailable_fields_in_archived_repos` class variable. -/
def unavailable_fields_in_archived_repos : List String :=
  ["description", "homepage", "allow_auto_merge", "allow_merge_commit", "allow_rebase_merge",
   "allow_squash_merge", "allow_update_branch", "delete_branch_on_merge", "merge_commit_message",
   "merge_commit_title", "squash_merge_commit_message", "squash_merge_commit_title",
   "dependabot_alerts_enabled", "dependabot_security_updates_enabled", "secret_scanning",
   "secret_scanning_push_protection", "has_issues", "has_wiki", "has_projects"]

/-- Embeds the `_gh_pages_properties` class variable. -/
def gh_pages_properties : List String :=
  ["gh_pages_source_branch", "gh_pages_source_path"]

/-- Field access on a repository by field name, as Python attribute lookup. -/
def get (r : Repository) : String → V := fun f =>
  if f = "name" then V.str r.name
  else if f = "description" then r.description
  else if f = "homepage" then r.homepage
  else if f = "private" then r.«private»
  else if f = "has_discussions" then r.has_discussions
  else if f = "has_issues" then r.has_issues
  else if f = "has_projects" then r.has_projects
  else if f = "has_wiki" then r.has_wiki
  else if f = "is_template" then r.is_template
  else if f = "topics" then r.topics
  else if f = "default_branch" then r.default_branch
  else if f = "allow_rebase_merge" then r.allow_rebase_merge
  else if f = "allow_merge_commit" then r.allow_merge_commit
  else if f = "allow_squash_merge" then r.allow_squash_merge
  else if f = "allow_auto_merge" then r.allow_auto_merge
  else if f = "delete_branch_on_merge" then r.delete_branch_on_merge
  else if f = "allow_update_branch" then r.allow_update_branch
  else if f = "squash_merge_commit_title" then r.squash_merge_commit_title
  else if f = "squash_merge_commit_message" then r.squash_merge_commit_message
  else if f = "merge_commit_title" then r.merge_commit_title
  else if f = "merge_commit_message" then r.merge_commit_message
  else if f = "archived" then r.archived
  else if f = "allow_forking" then r.allow_forking
  else if f = "web_commit_signoff_required" then r.web_commit_signoff_required
  else if f = "secret_scanning" then r.secret_scanning
  else if f = "secret_scanning_push_protection" then r.secret_scanning_push_protection
  else if f = "dependabot_alerts_enabled" then r.dependabot_alerts_enabled
  else if f = "dependabot_security_updates_enabled" then r.dependabot_security_updates_enabled
  else if f = "gh_pages_build_type" then r.gh_pages_build_type
  else if f = "gh_pages_source_branch" then r.gh_pages_source_branch
  else if f = "gh_pages_source_path" then r.gh_pages_source_path
  else V.unset

/-- Modelled from the spec: the scalar fields of a repository that diff
computation enumerates and that the to-provider mapping starts from (the models
base module with the field enumeration is not part of the sources); fields
tagged external-only (`id`, `node_id`), model-only (`aliases`,
`post_process_template_content`, `auto_init`), read-only
(`template_repository`) and the nested models are not part of provider-bound
mappings and are handled separately from scalar diffing. -/
def scalarFields : List String :=
  ["name", "description", "homepage", "private", "has_discussions", "has_issues",
   "has_projects", "has_wiki", "is_template", "topics", "default_branch",
   "allow_rebase_merge", "allow_merge_commit", "allow_squash_merge", "allow_auto_merge",
   "delete_branch_on_merge", "allow_update_branch", "squash_merge_commit_title",
   "squash_merge_commit_message", "merge_commit_title", "merge_commit_message",
   "archived", "allow_forking", "web_commit_signoff_required", "secret_scanning",
   "secret_scanning_push_protection", "dependabot_alerts_enabled",
   "dependabot_security_updates_enabled", "gh_pages_build_type",
   "gh_pages_source_branch", "gh_pages_source_path"]

/-- Embeds `Repository.include_field_for_diff_computation`: private
repositories exclude the security-analysis properties, archived repositories
exclude the archived-unavailable set, and a gh-pages build type of "disabled"
or "workflow" excludes the gh-pages source properties. -/
def include_field_for_diff_computation (self : Repository) (field : String) : Bool :=
  if self.«private» == V.bool true && security_properties.contains field then false
  else if self.archived == V.bool true && unavailable_fields_in_archived_repos.contains field then
    false
  else if (self.gh_pages_build_type == V.str "disabled"
      || self.gh_pages_build_type == V.str "workflow")
      && gh_pages_properties.contains field then false
  else true

/-- Diff between an expected and a current repository, see `get_difference_from`. -/
def get_difference (expected current : Repository) : List (String × Change) :=
  get_difference_from scalarFields expected.include_field_for_diff_computation
    expected.get current.get

end Repository

/-- Embeds `otterdog.models.LivePatchContext` as used by the repository diff:
the organization id, the changes already computed for the organization
settings, and the expected organization settings. -/
structure LivePatchContext where
  org_id : String
  modified_org_settings : List (String × Change) := []
  expected_org_settings : List (String × V) := []

/-- Embeds `otterdog.models.LivePatch`, specialized per entity type: an ADD
patch carries the expected entity, a REMOVE patch the current entity, a CHANGE
patch both entities and the computed field changes, and every nested-entity
patch carries the parent repository's name. -/
inductive Patch where
  | addRepo (expected : Repository)
  | removeRepo (current : Repository)
  | changeRepo (expected current : Repository) (changes : List (String × Change))
  | changeWorkflows (parentName : String) (changes : List (String × Change))
  | addWebhook (parentName : String) (expected : RepositoryWebhook)
  | removeWebhook (parentName : String) (current : RepositoryWebhook)
  | changeWebhook (parentName : String) (expected current : RepositoryWebhook)
      (changes : List (String × Change))
  | addSecret (parentName : String) (expected : RepositorySecret)
  | removeSecret (parentName : String) (current : RepositorySecret)
  | changeSecret (parentName : String) (expected current : RepositorySecret)
      (changes : List (String × Change))
  | addBranchProtectionRule (parentName : String) (expected : BranchProtectionRule)
  | removeBranchProtectionRule (parentName : String) (current : BranchProtectionRule)
  | changeBranchProtectionRule (parentName : String) (expected current : BranchProtectionRule)
      (changes : List (String × Change))
  | addEnv (parentName : String) (expected : Environment)
  | removeEnv (parentName : String) (current : Environment)
  | changeEnv (parentName : String) (expected current : Environment)
      (changes : List (String × Change))
deriving DecidableEq, Repr

/-- Generic entity-list reconciliation shared by all `generate_live_patch_of_list`
implementations: walk the current list; a current entity whose key is in the
expected map is handed to `onPair` and its key is popped; one without a match is
either skipped (`skipRemoval`, the provider-specific removal exceptions) or
handed to `onRemove`; finally every leftover expected entity is handed to
`onAdd`.  The expected map is built by `associate_by_key` (keys are unique per
the model invariant). -/
def reconcile {α : Type} (keyOf : α → String) (skipRemoval : α → Bool)
    (onAdd onRemove : α → List Patch) (onPair : α → α → List Patch) :
    List α → List (String × α) → List Patch
  | [], expectedByKey => expectedByKey.flatMap (fun p => onAdd p.2)
  | c :: rest, expectedByKey =>
    match alookup expectedByKey (keyOf c) with
    | none =>
      (if skipRemoval c then [] else onRemove c) ++
        reconcile keyOf skipRemoval onAdd onRemove onPair rest expectedByKey
    | some e =>
      onPair e c ++
        reconcile keyOf skipRemoval onAdd onRemove onPair rest (aerase expectedByKey (keyOf c))

namespace Environment

/-- Embeds `Environment.generate_live_patch`: an addition when there is no
current object, a deletion when there is no expected object, otherwise a CHANGE
patch when the field diff is non-empty. -/
def generate_live_patch (expected current : Option Environment) (parentName : String) :
    List Patch :=
  match current with
  | none =>
    match expected with
    | some e => [Patch.addEnv parentName e]
    | none => []
  | some c =>
    match expected with
    | none => [Patch.removeEnv parentName c]
    | some e =>
      let changes := get_difference e c
      if changes.isEmpty then [] else [Patch.changeEnv parentName e c changes]

/-- Embeds `Environment.generate_live_patch_of_list`: reconciliation by
environment name; a current "github-pages" environment without an expected
match is never proposed for removal when the parent repository hosts the
organization site (`<org>.github.io`, case-insensitive) or its GitHub Pages
build type is not "disabled". -/
def generate_live_patch_of_list (expected current : List Environment)
    (parent : Repository) (ctx : LivePatchContext) : List Patch :=
  reconcile (fun e => e.name)
    (fun c =>
      (parent.name.toLower == (ctx.org_id ++ ".github.io").toLower
        && c.name == "github-pages")
      || (c.name == "github-pages" && parent.gh_pages_build_type != V.str "disabled"))
    (fun e => generate_live_patch (some e) none parent.name)
    (fun c => generate_live_patch none (some c) parent.name)
    (fun e c => generate_live_patch (some e) (some c) parent.name)
    current (expected.map (fun e => (e.name, e)))

end Environment

namespace RepositoryWebhook

/-- Modelled from the spec: diff and patch generation for a single webhook
(source module absent); same ADD/REMOVE/CHANGE shape as every model object. -/
def generate_live_patch (expected current : Option RepositoryWebhook) (parentName : String) :
    List Patch :=
  match current with
  | none =>
    match expected with
    | some e => [Patch.addWebhook parentName e]
    | none => []
  | some c =>
    match expected with
    | none => [Patch.removeWebhook parentName c]
    | some e =>
      let getE := fun f => if f = "url" then V.str e.url else agetD e.fields f
      let getC := fun f => if f = "url" then V.str c.url else agetD c.fields f
      let changes := get_difference_from ("url" :: e.fields.map Prod.fst) (fun _ => true) getE getC
      if changes.isEmpty then [] else [Patch.changeWebhook parentName e c changes]

/-- Modelled from the spec: webhook-list reconciliation keyed by URL, with no
removal exceptions (source module absent). -/
def generate_live_patch_of_list (expected current : List RepositoryWebhook)
    (parentName : String) : List Patch :=
  reconcile (fun w => w.url) (fun _ => false)
    (fun e => generate_live_patch (some e) none parentName)
    (fun c => generate_live_patch none (some c) parentName)
    (fun e c => generate_live_patch (some e) (some c) parentName)
    current (expected.map (fun w => (w.url, w)))

end RepositoryWebhook

namespace RepositorySecret

/-- Modelled from the spec: diff and patch generation for a single repository
secret (source module absent). -/
def generate_live_patch (expected current : Option RepositorySecret) (parentName : String) :
    List Patch :=
  match current with
  | none =>
    match expected with
    | some e => [Patch.addSecret parentName e]
    | none => []
  | some c =>
    match expected with
    | none => [Patch.removeSecret parentName c]
    | some e =>
      let getE := fun f => if f = "name" then V.str e.name else agetD e.fields f
      let getC := fun f => if f = "name" then V.str c.name else agetD c.fields f
      let changes := get_difference_from ("name" :: e.fields.map Prod.fst) (fun _ => true) getE getC
      if changes.isEmpty then [] else [Patch.changeSecret parentName e c changes]

/-- Modelled from the spec: secret-list reconciliation keyed by name, with no
removal exceptions (source module absent). -/
def generate_live_patch_of_list (expected current : List RepositorySecret)
    (parentName : String) : List Patch :=
  reconcile (fun s => s.name) (fun _ => false)
    (fun e => generate_live_patch (some e) none parentName)
    (fun c => generate_live_patch none (some c) parentName)
    (fun e c => generate_live_patch (some e) (some c) parentName)
    current (expected.map (fun s => (s.name, s)))

end RepositorySecret

namespace BranchProtectionRule

/-- Modelled from the spec: diff and patch generation for a single branch
protection rule (source module absent). -/
def generate_live_patch (expected current : Option BranchProtectionRule) (parentName : String) :
    List Patch :=
  match current with
  | none =>
    match expected with
    | some e => [Patch.addBranchProtectionRule parentName e]
    | none => []
  | some c =>
    match expected with
    | none => [Patch.removeBranchProtectionRule parentName c]
    | some e =>
      let getE := fun f => if f = "pattern" then V.str e.pattern else agetD e.fields f
      let getC := fun f => if f = "pattern" then V.str c.pattern else agetD c.fields f
      let changes :=
        get_difference_from ("pattern" :: e.fields.map Prod.fst) (fun _ => true) getE getC
      if changes.isEmpty then [] else [Patch.changeBranchProtectionRule parentName e c changes]

/-- Modelled from the spec: branch-protection-rule list reconciliation keyed by
pattern, with no removal exceptions (source module absent). -/
def generate_live_patch_of_list (expected current : List BranchProtectionRule)
    (parentName : String) : List Patch :=
  reconcile (fun b => b.pattern) (fun _ => false)
    (fun e => generate_live_patch (some e) none parentName)
    (fun c => generate_live_patch none (some c) parentName)
    (fun e c => generate_live_patch (some e) (some c) parentName)
    current (expected.map (fun b => (b.pattern, b)))

end BranchProtectionRule

namespace RepositoryWorkflowSettings

/-- Modelled from the spec: patch generation for the nested workflow settings
of a repository (source module absent): a field-level diff producing a single
CHANGE patch when non-empty. -/
def generate_live_patch (expected current : RepositoryWorkflowSettings)
    (parentName : String) : List Patch :=
  let fields := match expected with | obj fs => fs.map Prod.fst | _ => []
  let changes := get_difference_from fields (fun _ => true) expected.get current.get
  if changes.isEmpty then [] else [Patch.changeWorkflows parentName changes]

end RepositoryWorkflowSettings

namespace Repository

/-- Embeds the organization-wide signoff override inside
`Repository.generate_live_patch`: when the modified organization settings
contain a `web_commit_signoff_required` change whose target value is `True`,
the current object's field is overwritten with that value before diffing. -/
def apply_signoff_override (current : Repository) (ctx : LivePatchContext) : Repository :=
  match alookup ctx.modified_org_settings "web_commit_signoff_required" with
  | some change =>
    if change.to_value == V.bool true then
      { current with web_commit_signoff_required := change.to_value }
    else current
  | none => current

/-- Embeds the CHANGE-computation of `Repository.generate_live_patch`: the
field diff after the signoff override, then the gh-pages source-path fix-up
(when `gh_pages_source_branch` changed, `gh_pages_source_path` is re-included
with the expected value on both sides), then the suppression of a
`has_projects` change when the organization has organization projects
disabled. -/
def compute_changes (expected current : Repository) (ctx : LivePatchContext) :
    List (String × Change) :=
  let modified := get_difference expected (apply_signoff_override current ctx)
  let modified :=
    if amem modified "gh_pages_source_branch" then
      aset modified "gh_pages_source_path"
        { from_value := expected.gh_pages_source_path, to_value := expected.gh_pages_source_path }
    else modified
  let has_organization_projects_disabled :=
    (alookup ctx.expected_org_settings "has_organization_projects").getD V.null == V.bool false
  if amem modified "has_projects" && has_organization_projects_disabled then
    aerase modified "has_projects"
  else modified

/-- Embeds `Repository.generate_live_patch`: an addition emits the ADD patch
and then still reconciles every nested list against an empty current list (the
deletion branch alone returns early); a matched pair emits a CHANGE patch when
the computed change set is non-empty and then reconciles the nested models;
workflow settings are only diffed when a current object exists, and branch
protection rules only when the expected repository is not archived. -/
def generate_live_patch (expected current : Option Repository) (ctx : LivePatchContext) :
    List Patch :=
  match expected, current with
  | none, none => []
  | none, some c => [Patch.removeRepo c]
  | some e, none =>
    Patch.addRepo e ::
      (RepositoryWebhook.generate_live_patch_of_list e.webhooks [] e.name ++
       RepositorySecret.generate_live_patch_of_list e.secrets [] e.name ++
       Environment.generate_live_patch_of_list e.environments [] e ctx ++
       (if e.archived == V.bool false then
         BranchProtectionRule.generate_live_patch_of_list e.branch_protection_rules [] e.name
       else []))
  | some e, some c =>
    let c2 := apply_signoff_override c ctx
    let changes := compute_changes e c ctx
    (if changes.isEmpty then [] else [Patch.changeRepo e c2 changes]) ++
      ((if e.workflows.is_set_and_valid then
          RepositoryWorkflowSettings.generate_live_patch e.workflows c2.workflows c2.name
        else []) ++
       RepositoryWebhook.generate_live_patch_of_list e.webhooks c2.webhooks c2.name ++
       RepositorySecret.generate_live_patch_of_list e.secrets c2.secrets c2.name ++
       Environment.generate_live_patch_of_list e.environments c2.environments c2 ctx ++
       (if e.archived == V.bool false then
         BranchProtectionRule.generate_live_patch_of_list e.branch_protection_rules
           c2.branch_protection_rules c2.name
       else []))

/-- Modelled from the spec: `otterdog.utils.multi_associate_by_key` (utils
module absent) registers every expected repository under each of its names;
names are unique per the model invariant. -/
def multi_associate_by_key (repos : List Repository) : List (String × Repository) :=
  repos.flatMap (fun r => r.get_all_names.map (fun n => (n, r)))

/-- Modelled from the spec: `otterdog.utils.associate_by_key` (utils module
absent) keyed by repository name. -/
def associate_by_key (repos : List Repository) : List (String × Repository) :=
  repos.map (fun r => (r.name, r))

/-- Loop of `Repository.generate_live_patch_of_list`: each current repository
is looked up in the all-names map; on a match all names of the matched expected
repository are popped from both maps; afterwards every leftover expected
repository (by name) yields an addition. -/
def generate_live_patch_of_list_go (ctx : LivePatchContext) :
    List Repository → List (String × Repository) → List (String × Repository) → List Patch
  | [], _, byName => byName.flatMap (fun p => generate_live_patch (some p.2) none ctx)
  | c :: rest, byAll, byName =>
    match alookup byAll c.name with
    | none => generate_live_patch none (some c) ctx ++ generate_live_patch_of_list_go ctx rest byAll byName
    | some e =>
      generate_live_patch (some e) (some c) ctx ++
        generate_live_patch_of_list_go ctx rest (e.get_all_names.foldl aerase byAll)
          (aerase byName e.name)

/-- Embeds `Repository.generate_live_patch_of_list`. -/
def generate_live_patch_of_list (expected current : List Repository)
    (ctx : LivePatchContext) : List Patch :=
  generate_live_patch_of_list_go ctx current (multi_associate_by_key expected)
    (associate_by_key expected)

end Repository

/-- Result of `Repository.get_mapping_to_provider`, with the one flat dict of
the source split by wire shape: `top` holds the remaining direct field
selectors (wire key equals the local field name), `security` the entries of the
nested `security_and_analysis` object as pairs of wire sub-key and source
field, `gh_pages_build_type` whether the nested `gh_pages` object carries a
`build_type` entry, and `gh_pages_source` the entries of the nested
`gh_pages.source` object as pairs of wire sub-key and source field. -/
structure RepoProviderMapping where
  top : List String
  security : List (String × String)
  gh_pages_build_type : Bool
  gh_pages_source : List (String × String)
deriving DecidableEq, Repr

namespace RepoProviderMapping

/-- Top-level wire keys of the provider-bound payload described by a mapping. -/
def topLevelKeys (m : RepoProviderMapping) : List String :=
  m.top ++ (if m.security.isEmpty then [] else ["security_and_analysis"]) ++
    (if m.gh_pages_build_type || !m.gh_pages_source.isEmpty then ["gh_pages"] else [])

/-- Local source fields whose values the described payload emits anywhere
(top-level or nested). -/
def emittedSourceFields (m : RepoProviderMapping) : List String :=
  m.top ++ m.security.map Prod.snd ++
    (if m.gh_pages_build_type then ["gh_pages_build_type"] else []) ++
    m.gh_pages_source.map Prod.snd

end RepoProviderMapping

namespace Repository

/-- Embeds `Repository.get_mapping_to_provider` on an input data dict: the
mapping starts from every provider field whose value in `data` is not unset;
for a private repository the security properties are dropped, otherwise they
are moved into the nested `security_and_analysis` object (keyed by the field
name with the `_enabled` suffix rewritten); a present `gh_pages_build_type`
moves into the nested `gh_pages` object; only when the build type is absent or
"legacy" are the gh-pages source properties moved under `gh_pages.source` —
under any other build type they are left untouched in the flat mapping.
The pops assume, as the callers guarantee, that `data` never stores the unset
sentinel as a value (unset fields are simply absent). -/
def get_mapping_to_provider (data : List (String × V)) : RepoProviderMapping :=
  let mapping0 := scalarFields.filter (fun f => !(is_unset (agetD data f)))
  let is_private := truthy ((alookup data "private").getD (V.bool false))
  let mapping1 := mapping0.filter (fun f => !(security_properties.contains f))
  let security :=
    if is_private then []
    else
      (security_properties.filter (fun f => amem data f)).map
        (fun f =>
          (if f = "dependabot_security_updates_enabled" then "dependabot_security_updates"
           else f, f))
  let hasBuildType := amem data "gh_pages_build_type"
  let mapping2 :=
    if hasBuildType then mapping1.filter (fun f => f != "gh_pages_build_type") else mapping1
  let ghPagesBuildType := (alookup data "gh_pages_build_type").getD V.null
  let legacyBranch := ghPagesBuildType == V.null || ghPagesBuildType == V.str "legacy"
  let mapping3 :=
    if legacyBranch then
      mapping2.filter (fun f => !(gh_pages_properties.contains f && amem data f))
    else mapping2
  let source :=
    if legacyBranch then
      (gh_pages_properties.filter (fun f => amem data f)).map
        (fun f => (if f = "gh_pages_source_branch" then "branch" else "path", f))
    else []
  { top := mapping3, security := security, gh_pages_build_type := hasBuildType,
    gh_pages_source := source }

end Repository

/-- Value of an entry in the environment's provider-bound mapping: a direct
field selector, the reviewer list resolved to actor ids through the provider
collaborator, or the translated deployment-branch-policy object. -/
inductive EnvMappingValue where
  | sel (field : String)
  | reviewersResolved
  | policyAll
  | policyProtected
  | policySelected
deriving DecidableEq, Repr

namespace Environment

/-- Provider fields of an environment (all fields that are not external-only). -/
def providerFields : List String :=
  ["name", "wait_timer", "reviewers", "deployment_branch_policy", "branch_policies"]

/-- Embeds `Environment.get_mapping_to_provider`: the mapping starts from every
provider field whose value in `data` is not unset; a present `reviewers` entry
is replaced by the actor-id resolution, and a present
`deployment_branch_policy` entry is replaced by the translated policy object —
any value outside "all" | "protected" | "selected" raises a `RuntimeError`. -/
def get_mapping_to_provider (data : List (String × V)) :
    Except String (List (String × EnvMappingValue)) :=
  let mapping := (providerFields.filter (fun f => !(is_unset (agetD data f)))).map
    (fun f => (f, EnvMappingValue.sel f))
  let mapping :=
    if amem mapping "reviewers" then aset mapping "reviewers" EnvMappingValue.reviewersResolved
    else mapping
  if amem mapping "deployment_branch_policy" then
    if agetD data "deployment_branch_policy" == V.str "all" then
      Except.ok (aset mapping "deployment_branch_policy" EnvMappingValue.policyAll)
    else if agetD data "deployment_branch_policy" == V.str "protected" then
      Except.ok (aset mapping "deployment_branch_policy" EnvMappingValue.policyProtected)
    else if agetD data "deployment_branch_policy" == V.str "selected" then
      Except.ok (aset mapping "deployment_branch_policy" EnvMappingValue.policySelected)
    else Except.error "unexpected deployment_branch_policy"
  else Except.ok mapping

end Environment

namespace ReferenceClient

/-- Embeds the status handling of `ReferenceClient.delete_reference`
(`otterdog/providers/github/rest/reference_client.py`): HTTP status 204 yields
`True`, a conflict (409) or the unprocessable status (422, how GitHub reports a
reference that does not exist on this endpoint) yields `False`, and any other
status raises a `RuntimeError`. -/
def delete_reference (status : Nat) : Except String Bool :=
  if status = 204 then Except.ok true
  else if status = 409 ∨ status = 422 then Except.ok false
  else Except.error "failed deleting reference"

end ReferenceClient

/-- Leftover expected map after the current-list walk of `reconcile`. -/
def leftoverKeyMap {α : Type} (keyOf : α → String) :
    List α → List (String × α) → List (String × α)
  | [], expectedByKey => expectedByKey
  | c :: rest, expectedByKey =>
    match alookup expectedByKey (keyOf c) with
    | none => leftoverKeyMap keyOf rest expectedByKey
    | some _ => leftoverKeyMap keyOf rest (aerase expectedByKey (keyOf c))

namespace Patch

def isAddEnvNamed (k : String) : Patch → Bool
  | .addEnv _ e => e.name == k
  | _ => false

def isRemoveEnvNamed (k : String) : Patch → Bool
  | .removeEnv _ c => c.name == k
  | _ => false

def isChangeEnvNamed (k : String) : Patch → Bool
  | .changeEnv _ _ c _ => c.name == k
  | _ => false

def isAddRepoNamed (k : String) : Patch → Bool
  | .addRepo r => r.name == k
  | _ => false

def isRemoveRepoNamed (k : String) : Patch → Bool
  | .removeRepo r => r.name == k
  | _ => false

def isChangeRepoNamed (k : String) : Patch → Bool
  | .changeRepo _ c _ => c.name == k
  | _ => false

end Patch

/-- Repository-level patch discriminator. -/
def Patch.isRepoLevel : Patch → Bool
  | .addRepo _ => true
  | .removeRepo _ => true
  | .changeRepo _ _ _ => true
  | _ => false

/-- Child patches of a matched repository pair, as emitted after the
repository's own CHANGE patch by `Repository.generate_live_patch`. -/
def Repository.paircall_children (e c : Repository) (ctx : LivePatchContext) : List Patch :=
  (if e.workflows.is_set_and_valid then
    RepositoryWorkflowSettings.generate_live_patch e.workflows
      (Repository.apply_signoff_override c ctx).workflows
      (Repository.apply_signoff_override c ctx).name
  else []) ++
  RepositoryWebhook.generate_live_patch_of_list e.webhooks
    (Repository.apply_signoff_override c ctx).webhooks
    (Repository.apply_signoff_override c ctx).name ++
  RepositorySecret.generate_live_patch_of_list e.secrets
    (Repository.apply_signoff_override c ctx).secrets
    (Repository.apply_signoff_override c ctx).name ++
  Environment.generate_live_patch_of_list e.environments
    (Repository.apply_signoff_override c ctx).environments
    (Repository.apply_signoff_override c ctx) ctx ++
  (if e.archived == V.bool false then
    BranchProtectionRule.generate_live_patch_of_list e.branch_protection_rules
      (Repository.apply_signoff_override c ctx).branch_protection_rules
      (Repository.apply_signoff_override c ctx).name
  else [])

/-! Concrete fixtures used to instantiate theorems with hypotheses. -/

/-- Patch context with no organization-level changes. -/
def ctxEmpty : LivePatchContext := { org_id := "o" }

/-- Patch context whose organization settings changed signoff to required. -/
def ctxSignoff : LivePatchContext :=
  { org_id := "o",
    modified_org_settings :=
      [("web_commit_signoff_required", { from_value := V.bool false, to_value := V.bool true })] }

/-- Environment with a non-selected policy and non-empty branch policies. -/
def envFixture : Environment :=
  { name := "env", deployment_branch_policy := V.str "all",
    branch_policies := V.strs ["main"] }

/-- Environment with the same name and empty branch policies. -/
def envFixture2 : Environment := { name := "env", branch_policies := V.strs [] }

/-- Environment named github-pages with all fields unset. -/
def envGithubPages : Environment := { name := "github-pages" }

/-- Environment named dev with all fields unset. -/
def envDev : Environment := { name := "dev" }

/-- Archived expected repository with an excluded-field difference and an
included-field difference against `repoArchivedCurrent`. -/
def repoArchivedExpected : Repository :=
  { name := "r", archived := V.bool true, description := V.str "a",
    has_discussions := V.bool true }

/-- Archived current repository, see `repoArchivedExpected`. -/
def repoArchivedCurrent : Repository :=
  { name := "r", archived := V.bool true, description := V.str "b",
    has_discussions := V.bool false }

/-- Expected repository with an unset signoff flag and a description change. -/
def repoSignoffExpected : Repository := { name := "r", description := V.str "a" }

/-- Current repository with signoff disabled, see `repoSignoffExpected`. -/
def repoSignoffCurrent : Repository :=
  { name := "r", description := V.str "b", web_commit_signoff_required := V.bool false }

/-- Expected repository whose gh-pages source branch changes while the source
path is unset (exercises the source-path fix-up). -/
def repoHackExpected : Repository :=
  { name := "r", gh_pages_build_type := V.str "legacy",
    gh_pages_source_branch := V.str "main" }

/-- Current repository for the source-path fix-up scenario. -/
def repoHackCurrent : Repository :=
  { name := "r", gh_pages_build_type := V.str "legacy",
    gh_pages_source_branch := V.str "master", gh_pages_source_path := V.str "/" }

/-- Fresh repository carrying one environment, to be reconciled as an addition. -/
def repoAddFixture : Repository :=
  { name := "r", archived := V.bool false, environments := [envDev] }

/-- Provider-bound input data with a disabled gh-pages build type and set
source properties. -/
def dataDisabledPages : List (String × V) :=
  [("name", V.str "r"), ("gh_pages_build_type", V.str "disabled"),
   ("gh_pages_source_branch", V.str "main"), ("gh_pages_source_path", V.str "/")]

/-- Expected repository named a with alias b. -/
def repoAliasExpected : Repository := { name := "a", aliases := ["b"], archived := V.bool false }

/-- Current repository named a. -/
def repoCurrentA : Repository := { name := "a", archived := V.bool false }

/-- Current repository named b. -/
def repoCurrentB : Repository := { name := "b", archived := V.bool false }

/-- Site repository of organization o, hosting GitHub pages. -/
def repoSiteFixture : Repository :=
  { name := "o.github.io", gh_pages_build_type := V.str "legacy", archived := V.bool false }

/-- Provider-bound input data for an environment with name and wait timer set. -/
def dataEnvFixture : List (String × V) := [("name", V.str "e"), ("wait_timer", V.int 5)]

/-! Theorems. -/

theorem alookup_cons {α : Type} (p : String × α) (m : List (String × α)) (k : String) :
    alookup (p :: m) k = if p.1 == k then some p.2 else alookup m k := by
  cases h : (p.1 == k) with
  | true => simp [alookup, List.find?, h]
  | false => simp [alookup, List.find?, h]

theorem alookup_map_mk {β : Type} (g : String → β) (l : List String) (k : String) :
    alookup (l.map (fun f => (f, g f))) k = if k ∈ l then some (g k) else none := by
  induction l with
  | nil => simp [alookup]
  | cons h t ih =>
    simp only [List.map_cons, alookup_cons]
    by_cases hf : h = k
    · subst hf
      simp
    · simp [hf, ih, List.mem_cons, Ne.symm hf]

theorem alookup_get_difference_from (fields : List String) (includeField : String → Bool)
    (getE getC : String → V) (f : String) :
    alookup (get_difference_from fields includeField getE getC) f =
      if f ∈ fields ∧ (includeField f && !(is_unset (getE f)) && getE f != getC f) = true
      then some { from_value := getC f, to_value := getE f }
      else none := by
  unfold get_difference_from
  rw [alookup_map_mk (fun f => ({ from_value := getC f, to_value := getE f } : Change))]
  simp [List.mem_filter]

theorem get_difference_from_not_mem (fields : List String) (includeField : String → Bool)
    (getE getC : String → V) (f : String)
    (h : (includeField f && !(is_unset (getE f)) && getE f != getC f) = false) :
    ∀ ch : Change, (f, ch) ∉ get_difference_from fields includeField getE getC := by
  intro ch hmem
  simp only [get_difference_from, List.mem_map, List.mem_filter] at hmem
  obtain ⟨g, ⟨_, hcond⟩, heq⟩ := hmem
  have : g = f := congrArg Prod.fst heq
  subst this
  rw [h] at hcond
  exact Bool.false_ne_true hcond


/-! Lemmas about association lists. -/

theorem alookup_mem {α : Type} {m : List (String × α)} {k : String} {v : α}
    (h : alookup m k = some v) : (k, v) ∈ m := by
  induction m with
  | nil => simp [alookup] at h
  | cons p t ih =>
    rw [alookup_cons] at h
    by_cases hp : (p.1 == k) = true
    · simp only [hp, if_true, Option.some.injEq] at h
      have h1 : p.1 = k := by simpa using hp
      have h2 : p = (k, v) := by
        cases p
        simp_all
      rw [← h2]
      exact List.mem_cons_self _ _
    · simp only [hp] at h
      simp only [Bool.false_eq_true, if_false] at h
      exact List.mem_cons_of_mem _ (ih h)

theorem alookup_eq_none_iff {α : Type} (m : List (String × α)) (k : String) :
    alookup m k = none ↔ ∀ x, (k, x) ∉ m := by
  induction m with
  | nil => simp [alookup]
  | cons p t ih =>
    rw [alookup_cons]
    by_cases hp : (p.1 == k) = true
    · have h1 : p.1 = k := by simpa using hp
      simp only [hp, if_true]
      constructor
      · intro h
        simp at h
      · intro h
        exfalso
        refine h p.2 ?_
        rw [← h1]
        exact List.mem_cons_self _ _
    · have hne : p.1 ≠ k := by simpa using hp
      simp only [hp, Bool.false_eq_true, if_false, ih]
      constructor
      · intro h x
        simp only [List.mem_cons]
        rintro (heq | hmem)
        · exact hne (congrArg Prod.fst heq).symm
        · exact h x hmem
      · intro h x hmem
        exact h x (List.mem_cons_of_mem _ hmem)

theorem aerase_sub {α : Type} {m : List (String × α)} {k : String} {x : String × α}
    (h : x ∈ aerase m k) : x ∈ m :=
  List.mem_of_mem_filter h

theorem not_mem_aerase_self {α : Type} (m : List (String × α)) (k : String) :
    ∀ x, (k, x) ∉ aerase m k := by
  intro x h
  have := List.of_mem_filter h
  simp at this

theorem alookup_aerase_ne {α : Type} (m : List (String × α)) {k k' : String}
    (h : k' ≠ k) : alookup (aerase m k) k' = alookup m k' := by
  induction m with
  | nil => simp [aerase, alookup]
  | cons p t ih =>
    by_cases hp : (p.1 == k) = true
    · have hk : p.1 = k := by simpa using hp
      have : (p.1 == k') = false := by simp [hk, Ne.symm h]
      simp only [aerase, List.filter_cons, bne, hp, Bool.not_true, Bool.false_eq_true, if_false]
      rw [alookup_cons, this]
      simp only [Bool.false_eq_true, if_false]
      exact ih
    · simp only [aerase, List.filter_cons, bne, hp, Bool.not_false, if_true]
      rw [alookup_cons, alookup_cons]
      by_cases hq : (p.1 == k') = true
      · simp [hq]
      · simp only [hq, Bool.false_eq_true, if_false]
        exact ih

theorem foldl_aerase_sub {α : Type} {x : String × α} :
    ∀ (names : List String) (m : List (String × α)),
    x ∈ names.foldl aerase m → x ∈ m := by
  intro names
  induction names with
  | nil => intro m h; simpa using h
  | cons n rest ih =>
    intro m h
    exact aerase_sub (ih (aerase m n) h)

theorem alookup_foldl_aerase_ne {α : Type} {k : String} :
    ∀ (names : List String) (m : List (String × α)),
    (∀ n ∈ names, n ≠ k) → alookup (names.foldl aerase m) k = alookup m k := by
  intro names
  induction names with
  | nil => intro m _; rfl
  | cons n rest ih =>
    intro m h
    have h1 : ∀ x ∈ rest, x ≠ k := fun x hx => h x (List.mem_cons_of_mem _ hx)
    have h2 : n ≠ k := h n (List.mem_cons_self _ _)
    rw [List.foldl_cons, ih (aerase m n) h1]
    exact alookup_aerase_ne m (Ne.symm h2)

theorem mem_aset {α : Type} {m : List (String × α)} {k : String} {v : α} {f : String} {x : α}
    (h : (f, x) ∈ aset m k v) : (f = k ∧ x = v) ∨ (f, x) ∈ m := by
  unfold aset at h
  by_cases hm : amem m k = true
  · simp only [hm, if_true, List.mem_map] at h
    obtain ⟨p, hp, heq⟩ := h
    by_cases hpk : (p.1 == k) = true
    · simp only [hpk, if_true] at heq
      left
      exact ⟨(congrArg Prod.fst heq).symm, (congrArg Prod.snd heq).symm⟩
    · simp only [hpk, Bool.false_eq_true, if_false] at heq
      right
      rwa [← heq]
  · simp only [hm, Bool.false_eq_true, if_false, List.mem_append] at h
    rcases h with h | h
    · right; exact h
    · left
      simp only [List.mem_singleton] at h
      exact ⟨(congrArg Prod.fst h), (congrArg Prod.snd h)⟩

/-! Lemmas about the generic list reconciliation. -/

theorem leftoverKeyMap_sub {α : Type} (keyOf : α → String) {x : String × α} :
    ∀ (cur : List α) (exp : List (String × α)),
    x ∈ leftoverKeyMap keyOf cur exp → x ∈ exp := by
  intro cur
  induction cur with
  | nil => intro exp h; simpa [leftoverKeyMap] using h
  | cons c rest ih =>
    intro exp h
    rw [leftoverKeyMap] at h
    cases hl : alookup exp (keyOf c) with
    | none => rw [hl] at h; exact ih exp h
    | some e => rw [hl] at h; exact aerase_sub (ih _ h)

theorem leftoverKeyMap_no_key {α : Type} (keyOf : α → String) {k : String} :
    ∀ (cur : List α) (exp : List (String × α)),
    ((∃ c ∈ cur, keyOf c = k) ∨ (∀ x, (k, x) ∉ exp)) →
    ∀ x, (k, x) ∉ leftoverKeyMap keyOf cur exp := by
  intro cur
  induction cur with
  | nil =>
    intro exp h x hx
    rcases h with ⟨c, hc, _⟩ | h
    · simp at hc
    · exact h x (by simpa [leftoverKeyMap] using hx)
  | cons c rest ih =>
    intro exp h x hx
    rw [leftoverKeyMap] at hx
    cases hl : alookup exp (keyOf c) with
    | none =>
      rw [hl] at hx
      rcases h with ⟨c0, hc0, hk0⟩ | hnone
      · rcases List.mem_cons.mp hc0 with rfl | hc0r
        · exact ((alookup_eq_none_iff exp k).mp (hk0 ▸ hl)) x (leftoverKeyMap_sub keyOf rest exp hx)
        · exact ih exp (Or.inl ⟨c0, hc0r, hk0⟩) x hx
      · exact hnone x (leftoverKeyMap_sub keyOf rest exp hx)
    | some e =>
      rw [hl] at hx
      by_cases hck : keyOf c = k
      · subst hck
        exact not_mem_aerase_self exp (keyOf c) x (leftoverKeyMap_sub keyOf rest _ hx)
      · rcases h with ⟨c0, hc0, hk0⟩ | hnone
        · rcases List.mem_cons.mp hc0 with rfl | hc0r
          · exact hck hk0
          · exact ih _ (Or.inl ⟨c0, hc0r, hk0⟩) x hx
        · exact ih _ (Or.inr fun y hy => hnone y (aerase_sub hy)) x hx

section ReconcileLemmas

variable {α : Type} (keyOf : α → String) (skip : α → Bool)
variable (onAdd onRemove : α → List Patch) (onPair : α → α → List Patch)

theorem reconcile_mem {p : Patch} :
    ∀ (cur : List α) (exp : List (String × α)),
    p ∈ reconcile keyOf skip onAdd onRemove onPair cur exp →
    (∃ e, (∃ k, (k, e) ∈ leftoverKeyMap keyOf cur exp) ∧ p ∈ onAdd e)
    ∨ (∃ c, c ∈ cur ∧ skip c = false ∧ p ∈ onRemove c)
    ∨ (∃ e c, c ∈ cur ∧ (keyOf c, e) ∈ exp ∧ p ∈ onPair e c) := by
  intro cur
  induction cur with
  | nil =>
    intro exp h
    simp only [reconcile, List.mem_flatMap] at h
    obtain ⟨q, hq, hpq⟩ := h
    exact Or.inl ⟨q.2, ⟨q.1, by simpa [leftoverKeyMap] using hq⟩, hpq⟩
  | cons c rest ih =>
    intro exp h
    rw [reconcile] at h
    cases hl : alookup exp (keyOf c) with
    | none =>
      rw [hl] at h
      rcases List.mem_append.mp h with h1 | h2
      · by_cases hs : skip c = true
        · simp [hs] at h1
        · exact Or.inr (Or.inl ⟨c, List.mem_cons_self _ _, by simpa using hs, by simpa [hs] using h1⟩)
      · rcases ih exp h2 with ⟨e, ⟨k, hk⟩, hp⟩ | ⟨c', hc', hs, hp⟩ | ⟨e, c', hc', he, hp⟩
        · exact Or.inl ⟨e, ⟨k, by rwa [leftoverKeyMap, hl]⟩, hp⟩
        · exact Or.inr (Or.inl ⟨c', List.mem_cons_of_mem _ hc', hs, hp⟩)
        · exact Or.inr (Or.inr ⟨e, c', List.mem_cons_of_mem _ hc', he, hp⟩)
    | some e =>
      rw [hl] at h
      rcases List.mem_append.mp h with h1 | h2
      · exact Or.inr (Or.inr ⟨e, c, List.mem_cons_self _ _, alookup_mem hl, h1⟩)
      · rcases ih _ h2 with ⟨e', ⟨k, hk⟩, hp⟩ | ⟨c', hc', hs, hp⟩ | ⟨e', c', hc', he', hp⟩
        · refine Or.inl ⟨e', ⟨k, ?_⟩, hp⟩
          rwa [leftoverKeyMap, hl]
        · exact Or.inr (Or.inl ⟨c', List.mem_cons_of_mem _ hc', hs, hp⟩)
        · exact Or.inr (Or.inr ⟨e', c', List.mem_cons_of_mem _ hc', aerase_sub he', hp⟩)

theorem reconcile_remove_mem {c : α} {p : Patch} :
    ∀ (cur : List α) (exp : List (String × α)),
    c ∈ cur → (∀ x, (keyOf c, x) ∉ exp) → skip c = false → p ∈ onRemove c →
    p ∈ reconcile keyOf skip onAdd onRemove onPair cur exp := by
  intro cur
  induction cur with
  | nil => intro exp h; simp at h
  | cons c' rest ih =>
    intro exp hc hno hs hp
    rw [reconcile]
    rcases List.mem_cons.mp hc with rfl | hcr
    · have : alookup exp (keyOf c) = none := (alookup_eq_none_iff _ _).mpr hno
      rw [this]
      exact List.mem_append.mpr (Or.inl (by simp [hs, hp]))
    · cases hl : alookup exp (keyOf c') with
      | none =>
        exact List.mem_append.mpr (Or.inr (ih exp hcr hno hs hp))
      | some e =>
        refine List.mem_append.mpr (Or.inr (ih _ hcr ?_ hs hp))
        intro x hx
        exact hno x (aerase_sub hx)

theorem countP_flatMap_zero {β : Type} (pred : Patch → Bool) (f : β → List Patch) :
    ∀ (l : List β), (∀ a ∈ l, (f a).countP pred = 0) → (l.flatMap f).countP pred = 0 := by
  intro l
  induction l with
  | nil => intro _; simp
  | cons a rest ih =>
    intro h
    rw [List.flatMap_cons, List.countP_append, h a (List.mem_cons_self _ _),
      ih fun b hb => h b (List.mem_cons_of_mem _ hb)]

theorem reconcile_countP_zero (pred : Patch → Bool) :
    ∀ (cur : List α) (exp : List (String × α)),
    (∀ x e, (x, e) ∈ exp → (onAdd e).countP pred = 0) →
    (∀ c ∈ cur, (onRemove c).countP pred = 0) →
    (∀ e c, c ∈ cur → (onPair e c).countP pred = 0) →
    (reconcile keyOf skip onAdd onRemove onPair cur exp).countP pred = 0 := by
  intro cur
  induction cur with
  | nil =>
    intro exp hAdd _ _
    rw [reconcile]
    exact countP_flatMap_zero pred _ exp fun a ha => hAdd a.1 a.2 (by simpa using ha)
  | cons c rest ih =>
    intro exp hAdd hRem hPair
    rw [reconcile]
    cases hl : alookup exp (keyOf c) with
    | none =>
      rw [List.countP_append,
        ih exp hAdd (fun x hx => hRem x (List.mem_cons_of_mem _ hx))
          (fun e x hx => hPair e x (List.mem_cons_of_mem _ hx))]
      by_cases hs : skip c = true
      · simp [hs]
      · simp only [hs, Bool.false_eq_true, if_false]
        rw [hRem c (List.mem_cons_self _ _)]
    | some e =>
      rw [List.countP_append,
        ih _ (fun x e' hx => hAdd x e' (aerase_sub hx))
          (fun x hx => hRem x (List.mem_cons_of_mem _ hx))
          (fun e' x hx => hPair e' x (List.mem_cons_of_mem _ hx)),
        hPair e c (List.mem_cons_self _ _)]

theorem reconcile_countP_matched_zero (pred : Patch → Bool) (k : String) :
    ∀ (cur : List α) (exp : List (String × α)),
    (∀ x e, (x, e) ∈ exp → (onAdd e).countP pred = 0) →
    (∀ c ∈ cur, keyOf c ≠ k → (onRemove c).countP pred = 0) →
    (∀ e c, c ∈ cur → (onPair e c).countP pred = 0) →
    (alookup exp k).isSome = true →
    (cur.map keyOf).Nodup →
    (reconcile keyOf skip onAdd onRemove onPair cur exp).countP pred = 0 := by
  intro cur
  induction cur with
  | nil =>
    intro exp hAdd _ _ _ _
    rw [reconcile]
    exact countP_flatMap_zero pred _ exp fun a ha => hAdd a.1 a.2 (by simpa using ha)
  | cons c rest ih =>
    intro exp hAdd hRem hPair hA hnodup
    have hnodup1 : (rest.map keyOf).Nodup := (List.nodup_cons.mp hnodup).2
    have hnotin : keyOf c ∉ rest.map keyOf := (List.nodup_cons.mp hnodup).1
    rw [reconcile]
    by_cases hck : keyOf c = k
    · subst hck
      cases hl : alookup exp (keyOf c) with
      | none =>
        rw [hl] at hA
        simp at hA
      | some e =>
        rw [List.countP_append, hPair e c (List.mem_cons_self _ _)]
        rw [reconcile_countP_zero keyOf skip onAdd onRemove onPair pred rest _
          (fun x e' hx => hAdd x e' (aerase_sub hx))
          (fun x hx => hRem x (List.mem_cons_of_mem _ hx)
            (fun hxk => hnotin (by rw [← hxk]; exact List.mem_map_of_mem keyOf hx)))
          (fun e' x hx => hPair e' x (List.mem_cons_of_mem _ hx))]
    · cases hl : alookup exp (keyOf c) with
      | none =>
        rw [List.countP_append,
          ih exp hAdd (fun x hx hxk => hRem x (List.mem_cons_of_mem _ hx) hxk)
            (fun e x hx => hPair e x (List.mem_cons_of_mem _ hx)) hA hnodup1]
        by_cases hs : skip c = true
        · simp [hs]
        · simp only [hs, Bool.false_eq_true, if_false]
          rw [hRem c (List.mem_cons_self _ _) hck]
      | some e =>
        rw [List.countP_append, hPair e c (List.mem_cons_self _ _)]
        rw [ih _ (fun x e' hx => hAdd x e' (aerase_sub hx))
          (fun x hx hxk => hRem x (List.mem_cons_of_mem _ hx) hxk)
          (fun e' x hx => hPair e' x (List.mem_cons_of_mem _ hx))
          (by rw [alookup_aerase_ne exp (Ne.symm hck)]; exact hA) hnodup1]

theorem reconcile_countP_popped_zero (pred : Patch → Bool) (k : String) :
    ∀ (cur : List α) (exp : List (String × α)),
    (∀ x e, (x, e) ∈ exp → x ≠ k → (onAdd e).countP pred = 0) →
    (∀ c ∈ cur, (onRemove c).countP pred = 0) →
    (∀ e c, c ∈ cur → (onPair e c).countP pred = 0) →
    ((∃ c ∈ cur, keyOf c = k) ∨ (∀ x, (k, x) ∉ exp)) →
    (reconcile keyOf skip onAdd onRemove onPair cur exp).countP pred = 0 := by
  intro cur
  induction cur with
  | nil =>
    intro exp hAdd _ _ hd
    rcases hd with ⟨c, hc, _⟩ | hnone
    · simp at hc
    · rw [reconcile]
      refine countP_flatMap_zero pred _ exp fun a ha => ?_
      refine hAdd a.1 a.2 (by simpa using ha) fun hak => ?_
      exact hnone a.2 (by rw [← hak]; simpa using ha)
  | cons c rest ih =>
    intro exp hAdd hRem hPair hd
    rw [reconcile]
    have hAdd1 : ∀ (x : String) e', (x, e') ∈ exp → x ≠ k → (onAdd e').countP pred = 0 := hAdd
    by_cases hck : keyOf c = k
    · subst hck
      cases hl : alookup exp (keyOf c) with
      | none =>
        rw [List.countP_append,
          ih exp hAdd (fun x hx => hRem x (List.mem_cons_of_mem _ hx))
            (fun e x hx => hPair e x (List.mem_cons_of_mem _ hx))
            (Or.inr ((alookup_eq_none_iff exp (keyOf c)).mp hl))]
        by_cases hs : skip c = true
        · simp [hs]
        · simp only [hs, Bool.false_eq_true, if_false]
          rw [hRem c (List.mem_cons_self _ _)]
      | some e =>
        rw [List.countP_append, hPair e c (List.mem_cons_self _ _),
          ih _ (fun x e' hx => hAdd x e' (aerase_sub hx))
            (fun x hx => hRem x (List.mem_cons_of_mem _ hx))
            (fun e' x hx => hPair e' x (List.mem_cons_of_mem _ hx))
            (Or.inr fun x hx => not_mem_aerase_self exp (keyOf c) x hx)]
    · have hd1 : (∃ c0 ∈ rest, keyOf c0 = k) ∨ (∀ x, (k, x) ∉ exp) := by
        rcases hd with ⟨c0, hc0, hk0⟩ | hnone
        · rcases List.mem_cons.mp hc0 with rfl | hc0r
          · exact absurd hk0 hck
          · exact Or.inl ⟨c0, hc0r, hk0⟩
        · exact Or.inr hnone
      cases hl : alookup exp (keyOf c) with
      | none =>
        rw [List.countP_append,
          ih exp hAdd (fun x hx => hRem x (List.mem_cons_of_mem _ hx))
            (fun e x hx => hPair e x (List.mem_cons_of_mem _ hx)) hd1]
        by_cases hs : skip c = true
        · simp [hs]
        · simp only [hs, Bool.false_eq_true, if_false]
          rw [hRem c (List.mem_cons_self _ _)]
      | some e =>
        rw [List.countP_append, hPair e c (List.mem_cons_self _ _),
          ih _ (fun x e' hx => hAdd x e' (aerase_sub hx))
            (fun x hx => hRem x (List.mem_cons_of_mem _ hx))
            (fun e' x hx => hPair e' x (List.mem_cons_of_mem _ hx))
            (by
              rcases hd1 with h | hnone
              · exact Or.inl h
              · exact Or.inr fun x hx => hnone x (aerase_sub hx))]

theorem reconcile_countP_le_one (pred : Patch → Bool) (k : String) :
    ∀ (cur : List α) (exp : List (String × α)),
    (∀ x e, (x, e) ∈ exp → (onAdd e).countP pred = 0) →
    (∀ c ∈ cur, (onRemove c).countP pred = 0) →
    (∀ e c, c ∈ cur → keyOf c ≠ k → (onPair e c).countP pred = 0) →
    (∀ e c, (onPair e c).countP pred ≤ 1) →
    (cur.map keyOf).Nodup →
    (reconcile keyOf skip onAdd onRemove onPair cur exp).countP pred ≤ 1 := by
  intro cur
  induction cur with
  | nil =>
    intro exp hAdd _ _ _ _
    rw [reconcile,
      countP_flatMap_zero pred _ exp fun a ha => hAdd a.1 a.2 (by simpa using ha)]
    omega
  | cons c rest ih =>
    intro exp hAdd hRem hPair0 hPair1 hnodup
    have hnodup1 : (rest.map keyOf).Nodup := (List.nodup_cons.mp hnodup).2
    have hnotin : keyOf c ∉ rest.map keyOf := (List.nodup_cons.mp hnodup).1
    rw [reconcile]
    cases hl : alookup exp (keyOf c) with
    | none =>
      rw [List.countP_append]
      have h2 := ih exp hAdd (fun x hx => hRem x (List.mem_cons_of_mem _ hx))
        (fun e x hx hxk => hPair0 e x (List.mem_cons_of_mem _ hx) hxk) hPair1 hnodup1
      by_cases hs : skip c = true
      · simpa [hs] using h2
      · simp only [hs, Bool.false_eq_true, if_false]
        rw [hRem c (List.mem_cons_self _ _)]
        omega
    | some e =>
      rw [List.countP_append]
      by_cases hck : keyOf c = k
      · have h1 := hPair1 e c
        have h2 : (reconcile keyOf skip onAdd onRemove onPair rest
            (aerase exp (keyOf c))).countP pred = 0 := by
          refine reconcile_countP_zero keyOf skip onAdd onRemove onPair pred rest _
            (fun x e' hx => hAdd x e' (aerase_sub hx))
            (fun x hx => hRem x (List.mem_cons_of_mem _ hx))
            (fun e' x hx => hPair0 e' x (List.mem_cons_of_mem _ hx) ?_)
          intro hxk
          exact hnotin (by rw [hck, ← hxk]; exact List.mem_map_of_mem keyOf hx)
        omega
      · rw [hPair0 e c (List.mem_cons_self _ _) hck]
        have h2 := ih (aerase exp (keyOf c)) (fun x e' hx => hAdd x e' (aerase_sub hx))
          (fun x hx => hRem x (List.mem_cons_of_mem _ hx))
          (fun e' x hx hxk => hPair0 e' x (List.mem_cons_of_mem _ hx) hxk) hPair1 hnodup1
        omega

end ReconcileLemmas

/-! Shape lemmas about the generated patches. -/

theorem env_patch_shape {eo co : Option Environment} {pn : String}
    {p : Patch} (hp : p ∈ Environment.generate_live_patch eo co pn) :
    (∃ e, eo = some e ∧ co = none ∧ p = Patch.addEnv pn e)
    ∨ (∃ c, eo = none ∧ co = some c ∧ p = Patch.removeEnv pn c)
    ∨ (∃ e c chs, eo = some e ∧ co = some c ∧ p = Patch.changeEnv pn e c chs) := by
  cases co with
  | none =>
    cases eo with
    | none => simp [Environment.generate_live_patch] at hp
    | some e =>
      simp only [Environment.generate_live_patch, List.mem_singleton] at hp
      exact Or.inl ⟨e, rfl, rfl, hp⟩
  | some c =>
    cases eo with
    | none =>
      simp only [Environment.generate_live_patch, List.mem_singleton] at hp
      exact Or.inr (Or.inl ⟨c, rfl, rfl, hp⟩)
    | some e =>
      simp only [Environment.generate_live_patch] at hp
      by_cases hc : (Environment.get_difference e c).isEmpty = true
      · simp [hc] at hp
      · simp only [hc, Bool.false_eq_true, if_false, List.mem_singleton] at hp
        exact Or.inr (Or.inr ⟨e, c, _, rfl, rfl, hp⟩)

theorem webhook_patch_shape {eo co : Option RepositoryWebhook}
    {pn : String} {p : Patch} (hp : p ∈ RepositoryWebhook.generate_live_patch eo co pn) :
    (∃ e, p = Patch.addWebhook pn e) ∨ (∃ c, p = Patch.removeWebhook pn c)
    ∨ (∃ e c chs, p = Patch.changeWebhook pn e c chs) := by
  cases co with
  | none =>
    cases eo with
    | none => simp [RepositoryWebhook.generate_live_patch] at hp
    | some e =>
      simp only [RepositoryWebhook.generate_live_patch, List.mem_singleton] at hp
      exact Or.inl ⟨e, hp⟩
  | some c =>
    cases eo with
    | none =>
      simp only [RepositoryWebhook.generate_live_patch, List.mem_singleton] at hp
      exact Or.inr (Or.inl ⟨c, hp⟩)
    | some e =>
      simp only [RepositoryWebhook.generate_live_patch] at hp
      split at hp
      · simp at hp
      · simp only [List.mem_singleton] at hp
        exact Or.inr (Or.inr ⟨e, c, _, hp⟩)

theorem secret_patch_shape {eo co : Option RepositorySecret}
    {pn : String} {p : Patch} (hp : p ∈ RepositorySecret.generate_live_patch eo co pn) :
    (∃ e, p = Patch.addSecret pn e) ∨ (∃ c, p = Patch.removeSecret pn c)
    ∨ (∃ e c chs, p = Patch.changeSecret pn e c chs) := by
  cases co with
  | none =>
    cases eo with
    | none => simp [RepositorySecret.generate_live_patch] at hp
    | some e =>
      simp only [RepositorySecret.generate_live_patch, List.mem_singleton] at hp
      exact Or.inl ⟨e, hp⟩
  | some c =>
    cases eo with
    | none =>
      simp only [RepositorySecret.generate_live_patch, List.mem_singleton] at hp
      exact Or.inr (Or.inl ⟨c, hp⟩)
    | some e =>
      simp only [RepositorySecret.generate_live_patch] at hp
      split at hp
      · simp at hp
      · simp only [List.mem_singleton] at hp
        exact Or.inr (Or.inr ⟨e, c, _, hp⟩)

theorem bpr_patch_shape {eo co : Option BranchProtectionRule}
    {pn : String} {p : Patch} (hp : p ∈ BranchProtectionRule.generate_live_patch eo co pn) :
    (∃ e, p = Patch.addBranchProtectionRule pn e)
    ∨ (∃ c, p = Patch.removeBranchProtectionRule pn c)
    ∨ (∃ e c chs, p = Patch.changeBranchProtectionRule pn e c chs) := by
  cases co with
  | none =>
    cases eo with
    | none => simp [BranchProtectionRule.generate_live_patch] at hp
    | some e =>
      simp only [BranchProtectionRule.generate_live_patch, List.mem_singleton] at hp
      exact Or.inl ⟨e, hp⟩
  | some c =>
    cases eo with
    | none =>
      simp only [BranchProtectionRule.generate_live_patch, List.mem_singleton] at hp
      exact Or.inr (Or.inl ⟨c, hp⟩)
    | some e =>
      simp only [BranchProtectionRule.generate_live_patch] at hp
      split at hp
      · simp at hp
      · simp only [List.mem_singleton] at hp
        exact Or.inr (Or.inr ⟨e, c, _, hp⟩)

theorem workflows_patch_shape
    {eo co : RepositoryWorkflowSettings} {pn : String} {p : Patch}
    (hp : p ∈ RepositoryWorkflowSettings.generate_live_patch eo co pn) :
    ∃ chs, p = Patch.changeWorkflows pn chs := by
  simp only [RepositoryWorkflowSettings.generate_live_patch] at hp
  split at hp
  · simp at hp
  · simp only [List.mem_singleton] at hp
    exact ⟨_, hp⟩

theorem env_list_patch_shape {expected current : List Environment}
    {parent : Repository} {ctx : LivePatchContext} {p : Patch}
    (hp : p ∈ Environment.generate_live_patch_of_list expected current parent ctx) :
    (∃ e, p = Patch.addEnv parent.name e) ∨ (∃ c, p = Patch.removeEnv parent.name c)
    ∨ (∃ e c chs, p = Patch.changeEnv parent.name e c chs) := by
  rcases reconcile_mem _ _ _ _ _ current _ hp with ⟨e, _, hm⟩ | ⟨c, _, _, hm⟩ | ⟨e, c, _, _, hm⟩
  · rcases env_patch_shape hm with ⟨e', _, _, h⟩ | ⟨c', hc, _, _⟩ | ⟨_, _, _, _, hc, _⟩
    · exact Or.inl ⟨e', h⟩
    · simp at hc
    · simp at hc
  · rcases env_patch_shape hm with ⟨e', hc, _, _⟩ | ⟨c', _, _, h⟩ | ⟨_, _, _, hc, _, _⟩
    · simp at hc
    · exact Or.inr (Or.inl ⟨c', h⟩)
    · simp at hc
  · rcases env_patch_shape hm with ⟨_, _, hc, _⟩ | ⟨_, hc, _, _⟩ | ⟨e', c', chs, _, _, h⟩
    · simp at hc
    · simp at hc
    · exact Or.inr (Or.inr ⟨e', c', chs, h⟩)

theorem webhook_list_patch_shape
    {expected current : List RepositoryWebhook} {pn : String} {p : Patch}
    (hp : p ∈ RepositoryWebhook.generate_live_patch_of_list expected current pn) :
    (∃ e, p = Patch.addWebhook pn e) ∨ (∃ c, p = Patch.removeWebhook pn c)
    ∨ (∃ e c chs, p = Patch.changeWebhook pn e c chs) := by
  rcases reconcile_mem _ _ _ _ _ current _ hp with ⟨e, _, hm⟩ | ⟨c, _, _, hm⟩ | ⟨e, c, _, _, hm⟩
  · exact webhook_patch_shape hm
  · exact webhook_patch_shape hm
  · exact webhook_patch_shape hm

theorem secret_list_patch_shape
    {expected current : List RepositorySecret} {pn : String} {p : Patch}
    (hp : p ∈ RepositorySecret.generate_live_patch_of_list expected current pn) :
    (∃ e, p = Patch.addSecret pn e) ∨ (∃ c, p = Patch.removeSecret pn c)
    ∨ (∃ e c chs, p = Patch.changeSecret pn e c chs) := by
  rcases reconcile_mem _ _ _ _ _ current _ hp with ⟨e, _, hm⟩ | ⟨c, _, _, hm⟩ | ⟨e, c, _, _, hm⟩
  · exact secret_patch_shape hm
  · exact secret_patch_shape hm
  · exact secret_patch_shape hm

theorem bpr_list_patch_shape
    {expected current : List BranchProtectionRule} {pn : String} {p : Patch}
    (hp : p ∈ BranchProtectionRule.generate_live_patch_of_list expected current pn) :
    (∃ e, p = Patch.addBranchProtectionRule pn e)
    ∨ (∃ c, p = Patch.removeBranchProtectionRule pn c)
    ∨ (∃ e c chs, p = Patch.changeBranchProtectionRule pn e c chs) := by
  rcases reconcile_mem _ _ _ _ _ current _ hp with ⟨e, _, hm⟩ | ⟨c, _, _, hm⟩ | ⟨e, c, _, _, hm⟩
  · exact bpr_patch_shape hm
  · exact bpr_patch_shape hm
  · exact bpr_patch_shape hm

namespace Repository

theorem apply_signoff_override_name (c : Repository) (ctx : LivePatchContext) :
    (apply_signoff_override c ctx).name = c.name := by
  unfold apply_signoff_override
  cases alookup ctx.modified_org_settings "web_commit_signoff_required" with
  | none => rfl
  | some ch =>
    by_cases hb : (ch.to_value == V.bool true) = true
    · simp [hb]
    · simp [hb]

theorem addcall_shape {e : Repository} {ctx : LivePatchContext} {p : Patch}
    (hp : p ∈ generate_live_patch (some e) none ctx) :
    p = Patch.addRepo e ∨ p.isRepoLevel = false := by
  simp only [generate_live_patch, List.mem_cons] at hp
  rcases hp with h | h
  · exact Or.inl h
  · right
    rcases List.mem_append.mp h with h | h
    rotate_left
    · by_cases ha : (e.archived == V.bool true) = true
      · split at h
        · rcases bpr_list_patch_shape h with ⟨_, rfl⟩ | ⟨_, rfl⟩ | ⟨_, _, _, rfl⟩ <;> rfl
        · simp at h
      · split at h
        · rcases bpr_list_patch_shape h with ⟨_, rfl⟩ | ⟨_, rfl⟩ | ⟨_, _, _, rfl⟩ <;> rfl
        · simp at h
    rcases List.mem_append.mp h with h | h
    rotate_left
    · rcases env_list_patch_shape h with ⟨_, rfl⟩ | ⟨_, rfl⟩ | ⟨_, _, _, rfl⟩ <;> rfl
    rcases List.mem_append.mp h with h | h
    · rcases webhook_list_patch_shape h with ⟨_, rfl⟩ | ⟨_, rfl⟩ | ⟨_, _, _, rfl⟩ <;> rfl
    · rcases secret_list_patch_shape h with ⟨_, rfl⟩ | ⟨_, rfl⟩ | ⟨_, _, _, rfl⟩ <;> rfl

theorem paircall_shape {e c : Repository} {ctx : LivePatchContext} {p : Patch}
    (hp : p ∈ generate_live_patch (some e) (some c) ctx) :
    (p = Patch.changeRepo e (apply_signoff_override c ctx) (compute_changes e c ctx)
      ∧ (compute_changes e c ctx).isEmpty = false)
    ∨ p.isRepoLevel = false := by
  have hp2 : p ∈
      (if (compute_changes e c ctx).isEmpty then ([] : List Patch)
       else [Patch.changeRepo e (apply_signoff_override c ctx) (compute_changes e c ctx)]) ++
      ((if e.workflows.is_set_and_valid then
          RepositoryWorkflowSettings.generate_live_patch e.workflows
            (apply_signoff_override c ctx).workflows (apply_signoff_override c ctx).name
        else []) ++
       RepositoryWebhook.generate_live_patch_of_list e.webhooks
         (apply_signoff_override c ctx).webhooks (apply_signoff_override c ctx).name ++
       RepositorySecret.generate_live_patch_of_list e.secrets
         (apply_signoff_override c ctx).secrets (apply_signoff_override c ctx).name ++
       Environment.generate_live_patch_of_list e.environments
         (apply_signoff_override c ctx).environments (apply_signoff_override c ctx) ctx ++
       (if e.archived == V.bool false then
         BranchProtectionRule.generate_live_patch_of_list e.branch_protection_rules
           (apply_signoff_override c ctx).branch_protection_rules
           (apply_signoff_override c ctx).name
       else [])) := hp
  clear hp
  rcases List.mem_append.mp hp2 with h | h
  · by_cases hc : (compute_changes e c ctx).isEmpty = true
    · simp [hc] at h
    · simp only [hc, Bool.false_eq_true, if_false, List.mem_singleton] at h
      exact Or.inl ⟨h, by simpa using hc⟩
  · right
    rcases List.mem_append.mp h with h | h
    rotate_left
    · split at h
      · rcases bpr_list_patch_shape h with ⟨_, rfl⟩ | ⟨_, rfl⟩ | ⟨_, _, _, rfl⟩ <;> rfl
      · simp at h
    rcases List.mem_append.mp h with h | h
    rotate_left
    · rcases env_list_patch_shape h with ⟨_, rfl⟩ | ⟨_, rfl⟩ | ⟨_, _, _, rfl⟩ <;> rfl
    rcases List.mem_append.mp h with h | h
    rotate_left
    · rcases secret_list_patch_shape h with ⟨_, rfl⟩ | ⟨_, rfl⟩ | ⟨_, _, _, rfl⟩ <;> rfl
    rcases List.mem_append.mp h with h | h
    · split at h
      · rcases workflows_patch_shape h with ⟨_, rfl⟩
        rfl
      · simp at h
    · rcases webhook_list_patch_shape h with ⟨_, rfl⟩ | ⟨_, rfl⟩ | ⟨_, _, _, rfl⟩ <;> rfl

theorem pair_changeRepo {e c : Repository} {ctx : LivePatchContext}
    {e' c' : Repository} {chs : List (String × Change)}
    (hp : Patch.changeRepo e' c' chs ∈ generate_live_patch (some e) (some c) ctx) :
    e' = e ∧ c' = apply_signoff_override c ctx ∧ chs = compute_changes e c ctx := by
  rcases paircall_shape hp with ⟨heq, _⟩ | hfalse
  · cases heq
    exact ⟨rfl, rfl, rfl⟩
  · simp [Patch.isRepoLevel] at hfalse

theorem pair_no_addRepo {e c : Repository} {ctx : LivePatchContext} {r : Repository} :
    Patch.addRepo r ∉ generate_live_patch (some e) (some c) ctx := by
  intro hp
  rcases paircall_shape hp with ⟨heq, _⟩ | hfalse
  · cases heq
  · simp [Patch.isRepoLevel] at hfalse

theorem pair_no_removeRepo {e c : Repository} {ctx : LivePatchContext} {r : Repository} :
    Patch.removeRepo r ∉ generate_live_patch (some e) (some c) ctx := by
  intro hp
  rcases paircall_shape hp with ⟨heq, _⟩ | hfalse
  · cases heq
  · simp [Patch.isRepoLevel] at hfalse

theorem addcall_no_removeRepo {e : Repository} {ctx : LivePatchContext} {r : Repository} :
    Patch.removeRepo r ∉ generate_live_patch (some e) none ctx := by
  intro hp
  rcases addcall_shape hp with heq | hfalse
  · cases heq
  · simp [Patch.isRepoLevel] at hfalse

theorem addcall_addRepo {e : Repository} {ctx : LivePatchContext} {r : Repository}
    (hp : Patch.addRepo r ∈ generate_live_patch (some e) none ctx) : r = e := by
  rcases addcall_shape hp with heq | hfalse
  · cases heq
    rfl
  · simp [Patch.isRepoLevel] at hfalse

theorem addcall_no_changeRepo {e : Repository} {ctx : LivePatchContext}
    {e' c' : Repository} {chs : List (String × Change)} :
    Patch.changeRepo e' c' chs ∉ generate_live_patch (some e) none ctx := by
  intro hp
  rcases addcall_shape hp with heq | hfalse
  · cases heq
  · simp [Patch.isRepoLevel] at hfalse

theorem compute_changes_mem {e c : Repository} {ctx : LivePatchContext} {f : String}
    {chg : Change} (h : (f, chg) ∈ compute_changes e c ctx) :
    f = "gh_pages_source_path" ∨ (f, chg) ∈ get_difference e (apply_signoff_override c ctx) := by
  set d0 := get_difference e (apply_signoff_override c ctx) with hd0
  set m1 := (if amem d0 "gh_pages_source_branch" then
      aset d0 "gh_pages_source_path"
        { from_value := e.gh_pages_source_path, to_value := e.gh_pages_source_path }
    else d0) with hm1
  have h2 : (f, chg) ∈
      (if amem m1 "has_projects"
          && ((alookup ctx.expected_org_settings "has_organization_projects").getD V.null
            == V.bool false) then
        aerase m1 "has_projects"
      else m1) := h
  have h3 : (f, chg) ∈ m1 := by
    split at h2
    · exact aerase_sub h2
    · exact h2
  rw [hm1] at h3
  split at h3
  · rcases mem_aset h3 with ⟨rfl, _⟩ | hm
    · exact Or.inl rfl
    · exact Or.inr hm
  · exact Or.inr h3

end Repository

/-! Claim theorems. -/

/-- C8: for every environment whose deployment_branch_policy is set and valid
and different from "selected", a non-empty branch_policies yields exactly one
WARNING finding from validation, and the branch_policies field is excluded from
diff computation, so it never appears in a CHANGE. -/
theorem environment_branch_policies_ignored (env : Environment)
    (hset : is_set_and_valid env.deployment_branch_policy = true)
    (hne : env.deployment_branch_policy ≠ V.str "selected")
    (hnonempty : 0 < vlen env.branch_policies) :
    (env.validate.filter (fun p => p.1 == FailureType.warning)).length = 1
    ∧ env.include_field_for_diff_computation "branch_policies" = false
    ∧ ∀ (cur : Environment) (chg : Change),
        ("branch_policies", chg) ∉ Environment.get_difference env cur := by
  have hbne : (env.deployment_branch_policy != V.str "selected") = true := by
    simp [bne, hne]
  have hincl : env.include_field_for_diff_computation "branch_policies" = false := by
    simp [Environment.include_field_for_diff_computation, hbne]
  refine ⟨?_, hincl, ?_⟩
  · unfold Environment.validate
    rw [hset]
    simp only [if_true]
    have hlen : (env.deployment_branch_policy != V.str "selected"
        && decide (0 < vlen env.branch_policies)) = true := by
      simp [hbne, hnonempty]
    rw [hlen]
    simp only [if_true]
    split <;> split <;>
      simp [List.filter, show (FailureType.error == FailureType.warning) = false from rfl,
        show (FailureType.warning == FailureType.warning) = true from rfl]
  · intro cur chg
    exact get_difference_from_not_mem _ _ _ _ _ (by simp [hincl]) chg

/-- C9: deleting a git reference treats a conflict (409) or the provider's
not-found signal for refs (422) as a non-fatal already-gone outcome returning
False, while a successful delete (204) returns True. -/
theorem delete_reference_idempotent (status : Nat) :
    (status = 409 ∨ status = 422 →
      ReferenceClient.delete_reference status = Except.ok false)
    ∧ (status = 204 → ReferenceClient.delete_reference status = Except.ok true) := by
  constructor
  · rintro (rfl | rfl) <;> rfl
  · rintro rfl
    rfl

theorem delete_reference_idempotent_witness :
    ReferenceClient.delete_reference 409 = Except.ok false
    ∧ ReferenceClient.delete_reference 422 = Except.ok false
    ∧ ReferenceClient.delete_reference 204 = Except.ok true :=
  ⟨(delete_reference_idempotent 409).1 (Or.inl rfl),
   (delete_reference_idempotent 422).1 (Or.inr rfl),
   (delete_reference_idempotent 204).2 rfl⟩

/-- C10: for organization workflow settings, enabled_repositories = "none"
excludes every other field from diff computation, and selected_repositories is
included in diff computation exactly when enabled_repositories = "selected". -/
theorem org_workflow_settings_diff_selection (superIncl : String → Bool)
    (s : OrganizationWorkflowSettings) (field : String) :
    (s.enabled_repositories = V.str "none" →
      (OrganizationWorkflowSettings.include_field_for_diff_computation superIncl s field = true
        ↔ field = "enabled_repositories"))
    ∧ (OrganizationWorkflowSettings.include_field_for_diff_computation superIncl s
        "selected_repositories" = true
      ↔ s.enabled_repositories = V.str "selected") := by
  constructor
  · intro h
    simp [OrganizationWorkflowSettings.include_field_for_diff_computation, h]
  · by_cases h : s.enabled_repositories = V.str "none"
    · simp [OrganizationWorkflowSettings.include_field_for_diff_computation, h]
    · simp [OrganizationWorkflowSettings.include_field_for_diff_computation, h]

theorem org_workflow_settings_diff_selection_witness :
    (OrganizationWorkflowSettings.include_field_for_diff_computation (fun _ => true)
        { enabled_repositories := V.str "none" } "selected_repositories" = true
      ↔ ("selected_repositories" : String) = "enabled_repositories")
    ∧ (OrganizationWorkflowSettings.include_field_for_diff_computation (fun _ => true)
        { enabled_repositories := V.str "selected" } "selected_repositories" = true
      ↔ V.str "selected" = V.str "selected") :=
  ⟨(org_workflow_settings_diff_selection (fun _ => true)
      { enabled_repositories := V.str "none" } "selected_repositories").1 rfl,
   (org_workflow_settings_diff_selection (fun _ => true)
      { enabled_repositories := V.str "selected" } "selected_repositories").2⟩

/-- C5: for a repository whose expected state is archived, no field of the
archived-exclusion set ever appears in a repository CHANGE patch; for one whose
expected state is private, the same holds for the security-analysis fields. -/
theorem repository_archived_private_exclusions (e c : Repository) (ctx : LivePatchContext)
    (f : String)
    (hf : (e.archived = V.bool true ∧ f ∈ Repository.unavailable_fields_in_archived_repos)
        ∨ (e.«private» = V.bool true ∧ f ∈ Repository.security_properties)) :
    ∀ (e' c' : Repository) (chs : List (String × Change)) (chg : Change),
      Patch.changeRepo e' c' chs ∈ Repository.generate_live_patch (some e) (some c) ctx →
      (f, chg) ∉ chs := by
  have hincl : e.include_field_for_diff_computation f = false := by
    unfold Repository.include_field_for_diff_computation
    rcases hf with ⟨ha, hmem⟩ | ⟨hp, hmem⟩
    · have hc : Repository.unavailable_fields_in_archived_repos.contains f = true :=
        List.elem_eq_true_of_mem hmem
      rw [ha]
      simp [hc]
      intro _ h2
      exact absurd hmem h2
    · have hc : Repository.security_properties.contains f = true :=
        List.elem_eq_true_of_mem hmem
      rw [hp]
      simp [hc]
      intro h1
      exact absurd hmem h1
  have hnotpath : f ≠ "gh_pages_source_path" := by
    rcases hf with ⟨_, hmem⟩ | ⟨_, hmem⟩ <;>
      · intro hrfl
        subst hrfl
        simp [Repository.unavailable_fields_in_archived_repos,
          Repository.security_properties] at hmem
  intro e' c' chs chg hp hmem
  obtain ⟨_, _, rfl⟩ := Repository.pair_changeRepo hp
  rcases Repository.compute_changes_mem hmem with h | h
  · exact hnotpath h
  · exact get_difference_from_not_mem _ _ _ _ _ (by simp [hincl]) chg h

/-- C2: while the modified organization settings contain a change of
web_commit_signoff_required to true, the repository baseline is forced to true
before diffing, so an expected value that is unset or itself true never yields
a web_commit_signoff_required entry in the repository CHANGE patch. -/
theorem repository_signoff_override_no_spurious_change (e c : Repository)
    (ctx : LivePatchContext) (ch : Change)
    (hm : alookup ctx.modified_org_settings "web_commit_signoff_required" = some ch)
    (ht : ch.to_value = V.bool true)
    (he : e.web_commit_signoff_required = V.unset
        ∨ e.web_commit_signoff_required = V.bool true) :
    ∀ (e' c' : Repository) (chs : List (String × Change)) (chg : Change),
      Patch.changeRepo e' c' chs ∈ Repository.generate_live_patch (some e) (some c) ctx →
      ("web_commit_signoff_required", chg) ∉ chs := by
  intro e' c' chs chg hp hmem
  obtain ⟨_, _, rfl⟩ := Repository.pair_changeRepo hp
  rcases Repository.compute_changes_mem hmem with h | h
  · exact absurd h (by decide)
  · have hc2 : (Repository.apply_signoff_override c ctx).web_commit_signoff_required
        = V.bool true := by
      unfold Repository.apply_signoff_override
      rw [hm]
      simp [ht]
    refine get_difference_from_not_mem _ _ _ _ _ ?_ chg h
    rcases he with h1 | h1 <;> simp [Repository.get, h1, hc2, is_unset]

theorem environment_branch_policies_ignored_witness :
    (envFixture.validate.filter (fun p => p.1 == FailureType.warning)).length = 1
    ∧ envFixture.include_field_for_diff_computation "branch_policies" = false
    ∧ ("branch_policies", ({ from_value := V.unset, to_value := V.strs ["main"] } : Change))
        ∉ Environment.get_difference envFixture envFixture2 := by
  have h := environment_branch_policies_ignored envFixture (by decide) (by decide) (by decide)
  exact ⟨h.1, h.2.1, h.2.2 envFixture2 _⟩

theorem repository_archived_private_exclusions_witness :
    (repoArchivedExpected.archived = V.bool true
      ∧ "description" ∈ Repository.unavailable_fields_in_archived_repos)
    ∧ Patch.changeRepo repoArchivedExpected repoArchivedCurrent
        [("has_discussions", { from_value := V.bool false, to_value := V.bool true })]
        ∈ Repository.generate_live_patch (some repoArchivedExpected)
            (some repoArchivedCurrent) ctxEmpty
    ∧ ("description", ({ from_value := V.str "b", to_value := V.str "a" } : Change))
        ∉ [(("has_discussions" : String),
            ({ from_value := V.bool false, to_value := V.bool true } : Change))] := by
  refine ⟨⟨rfl, by decide⟩, by decide, ?_⟩
  exact repository_archived_private_exclusions repoArchivedExpected repoArchivedCurrent
    ctxEmpty "description" (Or.inl ⟨rfl, by decide⟩) repoArchivedExpected repoArchivedCurrent
    [("has_discussions", { from_value := V.bool false, to_value := V.bool true })]
    { from_value := V.str "b", to_value := V.str "a" } (by decide)

theorem repository_signoff_override_no_spurious_change_witness :
    alookup ctxSignoff.modified_org_settings "web_commit_signoff_required"
      = some { from_value := V.bool false, to_value := V.bool true }
    ∧ Patch.changeRepo repoSignoffExpected
        (Repository.apply_signoff_override repoSignoffCurrent ctxSignoff)
        [("description", { from_value := V.str "b", to_value := V.str "a" })]
        ∈ Repository.generate_live_patch (some repoSignoffExpected)
            (some repoSignoffCurrent) ctxSignoff
    ∧ ("web_commit_signoff_required",
        ({ from_value := V.bool false, to_value := V.bool true } : Change))
        ∉ [(("description" : String),
            ({ from_value := V.str "b", to_value := V.str "a" } : Change))] := by
  refine ⟨rfl, by decide, ?_⟩
  exact repository_signoff_override_no_spurious_change repoSignoffExpected repoSignoffCurrent
    ctxSignoff { from_value := V.bool false, to_value := V.bool true } rfl rfl (Or.inl rfl)
    repoSignoffExpected (Repository.apply_signoff_override repoSignoffCurrent ctxSignoff)
    [("description", { from_value := V.str "b", to_value := V.str "a" })]
    { from_value := V.bool false, to_value := V.bool true } (by decide)

theorem mapping_top_mem {data : List (String × V)} {f : String}
    (h : f ∈ (Repository.get_mapping_to_provider data).top) :
    f ∈ Repository.scalarFields ∧ is_unset (agetD data f) = false := by
  have hsub : ∀ (l : List String) (q : String → Bool), f ∈ l.filter q → f ∈ l :=
    fun l q hh => (List.mem_filter.mp hh).1
  unfold Repository.get_mapping_to_provider at h
  dsimp only at h
  have h0 : f ∈ Repository.scalarFields.filter (fun g => !(is_unset (agetD data g))) := by
    split at h
    · have h1 := hsub _ _ h
      split at h1
      · exact hsub _ _ (hsub _ _ h1)
      · exact hsub _ _ h1
    · split at h
      · exact hsub _ _ (hsub _ _ h)
      · exact hsub _ _ h
  have h2 := List.mem_filter.mp h0
  exact ⟨h2.1, by simpa using h2.2⟩

theorem mapping_security_mem {data : List (String × V)} {f : String}
    (h : f ∈ (Repository.get_mapping_to_provider data).security.map Prod.snd) :
    amem data f = true := by
  unfold Repository.get_mapping_to_provider at h
  dsimp only at h
  split at h
  · simp at h
  · simp only [List.map_map, List.mem_map] at h
    obtain ⟨g, hg, heq⟩ := h
    have := (List.mem_filter.mp hg).2
    rwa [show f = g from heq.symm]

theorem mapping_buildtype_mem {data : List (String × V)}
    (h : (Repository.get_mapping_to_provider data).gh_pages_build_type = true) :
    amem data "gh_pages_build_type" = true := by
  unfold Repository.get_mapping_to_provider at h
  dsimp only at h
  exact h

theorem mapping_source_mem {data : List (String × V)} {f : String}
    (h : f ∈ (Repository.get_mapping_to_provider data).gh_pages_source.map Prod.snd) :
    amem data f = true := by
  unfold Repository.get_mapping_to_provider at h
  dsimp only at h
  split at h
  · simp only [List.map_map, List.mem_map] at h
    obtain ⟨g, hg, heq⟩ := h
    have := (List.mem_filter.mp hg).2
    rwa [show f = g from heq.symm]
  · simp at h

theorem mem_aset_keys {α : Type} {m : List (String × α)} {k : String} {v : α}
    {f : String} {x : α} (ha : amem m k = true) (h : (f, x) ∈ aset m k v) :
    ∃ y, (f, y) ∈ m := by
  rcases mem_aset h with ⟨rfl, _⟩ | hm
  · simp only [amem, Option.isSome_iff_exists] at ha
    obtain ⟨y, hy⟩ := ha
    exact ⟨y, alookup_mem hy⟩
  · exact ⟨x, hm⟩

theorem env_mapping_keys {data : List (String × V)} {m : List (String × EnvMappingValue)}
    {f : String} {x : EnvMappingValue}
    (hok : Environment.get_mapping_to_provider data = Except.ok m)
    (hmem : (f, x) ∈ m) :
    f ∈ Environment.providerFields.filter (fun g => !(is_unset (agetD data g))) := by
  unfold Environment.get_mapping_to_provider at hok
  dsimp only at hok
  generalize hbase : (Environment.providerFields.filter
      (fun g => !(is_unset (agetD data g)))).map (fun g => (g, EnvMappingValue.sel g))
    = base at hok
  have key_of_base : ∀ (y : EnvMappingValue), (f, y) ∈ base →
      f ∈ Environment.providerFields.filter (fun g => !(is_unset (agetD data g))) := by
    intro y hy
    rw [← hbase] at hy
    simp only [List.mem_map] at hy
    obtain ⟨g, hg, heq⟩ := hy
    rwa [show f = g from (congrArg Prod.fst heq).symm]
  by_cases hrev : amem base "reviewers" = true
  · rw [if_pos hrev] at hok
    have key_of_m1 : ∀ (y : EnvMappingValue),
        (f, y) ∈ aset base "reviewers" EnvMappingValue.reviewersResolved →
        f ∈ Environment.providerFields.filter (fun g => !(is_unset (agetD data g))) := by
      intro y hy
      obtain ⟨z, hz⟩ := mem_aset_keys hrev hy
      exact key_of_base z hz
    by_cases hd : amem (aset base "reviewers" EnvMappingValue.reviewersResolved)
        "deployment_branch_policy" = true
    · rw [if_pos hd] at hok
      by_cases h1 : (agetD data "deployment_branch_policy" == V.str "all") = true
      · rw [if_pos h1] at hok
        cases hok
        obtain ⟨z, hz⟩ := mem_aset_keys hd hmem
        exact key_of_m1 z hz
      · rw [if_neg h1] at hok
        by_cases h2 : (agetD data "deployment_branch_policy" == V.str "protected") = true
        · rw [if_pos h2] at hok
          cases hok
          obtain ⟨z, hz⟩ := mem_aset_keys hd hmem
          exact key_of_m1 z hz
        · rw [if_neg h2] at hok
          by_cases h3 : (agetD data "deployment_branch_policy" == V.str "selected") = true
          · rw [if_pos h3] at hok
            cases hok
            obtain ⟨z, hz⟩ := mem_aset_keys hd hmem
            exact key_of_m1 z hz
          · rw [if_neg h3] at hok
            cases hok
    · rw [if_neg hd] at hok
      cases hok
      exact key_of_m1 x hmem
  · rw [if_neg hrev] at hok
    by_cases hd : amem base "deployment_branch_policy" = true
    · rw [if_pos hd] at hok
      by_cases h1 : (agetD data "deployment_branch_policy" == V.str "all") = true
      · rw [if_pos h1] at hok
        cases hok
        obtain ⟨z, hz⟩ := mem_aset_keys hd hmem
        exact key_of_base z hz
      · rw [if_neg h1] at hok
        by_cases h2 : (agetD data "deployment_branch_policy" == V.str "protected") = true
        · rw [if_pos h2] at hok
          cases hok
          obtain ⟨z, hz⟩ := mem_aset_keys hd hmem
          exact key_of_base z hz
        · rw [if_neg h2] at hok
          by_cases h3 : (agetD data "deployment_branch_policy" == V.str "selected") = true
          · rw [if_pos h3] at hok
            cases hok
            obtain ⟨z, hz⟩ := mem_aset_keys hd hmem
            exact key_of_base z hz
          · rw [if_neg h3] at hok
            cases hok
    · rw [if_neg hd] at hok
      cases hok
      exact key_of_base x hmem

/-- C4 counterexample: the expected repository has an unset
gh_pages_source_path, yet the emitted CHANGE patch contains that field — the
gh-pages source-path fix-up re-includes it whenever gh_pages_source_branch
changed, regardless of unsetness. -/
theorem unset_exclusion_counterexample :
    is_unset (repoHackExpected.get "gh_pages_source_path") = true
    ∧ Patch.changeRepo repoHackExpected repoHackCurrent
        [("gh_pages_source_branch", { from_value := V.str "master", to_value := V.str "main" }),
         ("gh_pages_source_path", { from_value := V.unset, to_value := V.unset })]
        ∈ Repository.generate_live_patch (some repoHackExpected) (some repoHackCurrent)
            ctxEmpty := by
  exact ⟨by decide, by decide⟩

/-- C4 amended: for every field other than gh_pages_source_path, an unset
expected value never appears in a repository CHANGE patch (gh_pages_source_path
alone is force-included when gh_pages_source_branch changed); an unset expected
environment field never appears in an environment diff; and the repository and
environment to-provider mappings never emit a field absent from the input data. -/
theorem unset_exclusion_amended :
    (∀ (e c : Repository) (ctx : LivePatchContext) (f : String),
      f ≠ "gh_pages_source_path" → is_unset (e.get f) = true →
      ∀ (e' c' : Repository) (chs : List (String × Change)) (chg : Change),
        Patch.changeRepo e' c' chs ∈ Repository.generate_live_patch (some e) (some c) ctx →
        (f, chg) ∉ chs)
    ∧ (∀ (env cur : Environment) (f : String) (chg : Change),
        is_unset (env.get f) = true → (f, chg) ∉ Environment.get_difference env cur)
    ∧ (∀ (data : List (String × V)) (f : String),
        alookup data f = none →
        f ∉ (Repository.get_mapping_to_provider data).emittedSourceFields)
    ∧ (∀ (data : List (String × V)) (f : String) (m : List (String × EnvMappingValue)),
        alookup data f = none → Environment.get_mapping_to_provider data = Except.ok m →
        ∀ x, (f, x) ∉ m) := by
  have hunset : ∀ (data : List (String × V)) (f : String),
      alookup data f = none → is_unset (agetD data f) = true := by
    intro data f h
    simp [agetD, h, is_unset]
  refine ⟨?_, ?_, ?_, ?_⟩
  · intro e c ctx f hne hu e' c' chs chg hp hmem
    obtain ⟨_, _, rfl⟩ := Repository.pair_changeRepo hp
    rcases Repository.compute_changes_mem hmem with h | h
    · exact hne h
    · exact get_difference_from_not_mem _ _ _ _ _ (by simp [hu]) chg h
  · intro env cur f chg hu
    exact get_difference_from_not_mem _ _ _ _ _ (by simp [hu]) chg
  · intro data f hnone hmem
    have hu := hunset data f hnone
    simp only [RepoProviderMapping.emittedSourceFields, List.mem_append] at hmem
    rcases hmem with ((h | h) | h) | h
    · have := (mapping_top_mem h).2
      rw [hu] at this
      cases this
    · have := mapping_security_mem h
      simp [amem, hnone] at this
    · split at h
      · simp only [List.mem_singleton] at h
        subst h
        have := mapping_buildtype_mem (by assumption)
        simp [amem, hnone] at this
      · simp at h
    · have := mapping_source_mem h
      simp [amem, hnone] at this
  · intro data f m hnone hok x hmem
    have := (List.mem_filter.mp (env_mapping_keys hok hmem)).2
    rw [hunset data f hnone] at this
    cases this

theorem unset_exclusion_amended_witness :
    (("description", ({ from_value := V.unset, to_value := V.unset } : Change))
      ∉ [("gh_pages_source_branch",
           ({ from_value := V.str "master", to_value := V.str "main" } : Change)),
         ("gh_pages_source_path", ({ from_value := V.unset, to_value := V.unset } : Change))])
    ∧ (("reviewers", ({ from_value := V.unset, to_value := V.unset } : Change))
        ∉ Environment.get_difference envDev envGithubPages)
    ∧ "description" ∉ (Repository.get_mapping_to_provider dataDisabledPages).emittedSourceFields
    ∧ ("reviewers", EnvMappingValue.reviewersResolved)
        ∉ [(("name" : String), EnvMappingValue.sel "name"),
           ("wait_timer", EnvMappingValue.sel "wait_timer")] := by
  refine ⟨?_, ?_, ?_, ?_⟩
  · exact unset_exclusion_amended.1 repoHackExpected repoHackCurrent ctxEmpty "description"
      (by decide) (by decide) repoHackExpected repoHackCurrent
      [("gh_pages_source_branch", { from_value := V.str "master", to_value := V.str "main" }),
       ("gh_pages_source_path", { from_value := V.unset, to_value := V.unset })]
      { from_value := V.unset, to_value := V.unset } (by decide)
  · exact unset_exclusion_amended.2.1 envDev envGithubPages "reviewers"
      { from_value := V.unset, to_value := V.unset } (by decide)
  · exact unset_exclusion_amended.2.2.1 dataDisabledPages "description" (by decide)
  · exact unset_exclusion_amended.2.2.2 dataEnvFixture "reviewers"
      [("name", EnvMappingValue.sel "name"), ("wait_timer", EnvMappingValue.sel "wait_timer")]
      (by decide) rfl EnvMappingValue.reviewersResolved

/-- C7 counterexample: with gh_pages_build_type "disabled" and set source
properties, the to-provider mapping still carries gh_pages_source_branch and
gh_pages_source_path as top-level payload keys — they are not omitted. -/
theorem gh_pages_disabled_source_dropped_counterexample :
    alookup dataDisabledPages "gh_pages_build_type" = some (V.str "disabled")
    ∧ "gh_pages_source_branch"
        ∈ (Repository.get_mapping_to_provider dataDisabledPages).topLevelKeys
    ∧ "gh_pages_source_path"
        ∈ (Repository.get_mapping_to_provider dataDisabledPages).topLevelKeys := by
  exact ⟨rfl, by decide, by decide⟩

/-- C7 amended: when gh_pages_build_type in the input data is "disabled", the
gh-pages source properties are not placed in the nested gh_pages object of the
provider payload (its source sub-object stays empty); when set, they remain as
top-level keys of the flat mapping instead. -/
theorem gh_pages_disabled_source_not_nested (data : List (String × V))
    (hd : (alookup data "gh_pages_build_type").getD V.null = V.str "disabled") :
    (Repository.get_mapping_to_provider data).gh_pages_source = []
    ∧ ∀ f ∈ Repository.gh_pages_properties,
        is_unset (agetD data f) = false →
        f ∈ (Repository.get_mapping_to_provider data).top := by
  have hleg : (((alookup data "gh_pages_build_type").getD V.null == V.null)
      || ((alookup data "gh_pages_build_type").getD V.null == V.str "legacy")) = false := by
    rw [hd]
    decide
  constructor
  · unfold Repository.get_mapping_to_provider
    dsimp only
    rw [hleg]
    simp
  · intro f hf hset
    have hf2 : f = "gh_pages_source_branch" ∨ f = "gh_pages_source_path" := by
      simpa [Repository.gh_pages_properties] using hf
    unfold Repository.get_mapping_to_provider
    dsimp only
    rw [hleg]
    simp only [Bool.false_eq_true, if_false]
    have hm0 : f ∈ Repository.scalarFields.filter (fun g => !(is_unset (agetD data g))) := by
      refine List.mem_filter.mpr ⟨?_, by simp [hset]⟩
      rcases hf2 with rfl | rfl <;> decide
    have hm1 : f ∈ (Repository.scalarFields.filter
        (fun g => !(is_unset (agetD data g)))).filter
        (fun g => !(Repository.security_properties.contains g)) := by
      refine List.mem_filter.mpr ⟨hm0, ?_⟩
      rcases hf2 with rfl | rfl <;> decide
    split
    · refine List.mem_filter.mpr ⟨hm1, ?_⟩
      rcases hf2 with rfl | rfl <;> decide
    · exact hm1

theorem gh_pages_disabled_source_not_nested_witness :
    (Repository.get_mapping_to_provider dataDisabledPages).gh_pages_source = []
    ∧ "gh_pages_source_branch"
        ∈ (Repository.get_mapping_to_provider dataDisabledPages).top := by
  have h := gh_pages_disabled_source_not_nested dataDisabledPages (by decide)
  exact ⟨h.1, h.2 "gh_pages_source_branch" (by decide) (by decide)⟩

/-- C1 counterexample: reconciling a fresh repository (no current counterpart)
that carries one environment emits a separate child ADD patch for that
environment — nested-model children are not created solely through the parent's
creation payload. -/
theorem repository_addition_child_patch_counterexample :
    Patch.addEnv "r" envDev
      ∈ Repository.generate_live_patch (some repoAddFixture) none ctxEmpty := by
  decide

/-- C1 amended: for an ADD (no current counterpart), the repository's own ADD
patch is emitted first and the nested lists are still reconciled against empty
current lists, producing one child ADD patch per webhook, secret and
environment, and per branch protection rule when the expected repository is not
archived; only the nested workflow-settings diff is skipped. -/
theorem repository_addition_reconciles_children (e : Repository) (ctx : LivePatchContext) :
    Repository.generate_live_patch (some e) none ctx =
      Patch.addRepo e ::
        (e.webhooks.map (Patch.addWebhook e.name) ++
         e.secrets.map (Patch.addSecret e.name) ++
         e.environments.map (Patch.addEnv e.name) ++
         (if e.archived == V.bool false then
           e.branch_protection_rules.map (Patch.addBranchProtectionRule e.name)
         else [])) := by
  have h1 : ∀ (exp : List RepositoryWebhook) (pn : String),
      RepositoryWebhook.generate_live_patch_of_list exp [] pn
        = exp.map (Patch.addWebhook pn) := by
    intro exp pn
    rw [RepositoryWebhook.generate_live_patch_of_list, reconcile]
    induction exp with
    | nil => rfl
    | cons a t ih =>
      simp only [List.map_cons, List.flatMap_cons, ih]
      rfl
  have h2 : ∀ (exp : List RepositorySecret) (pn : String),
      RepositorySecret.generate_live_patch_of_list exp [] pn
        = exp.map (Patch.addSecret pn) := by
    intro exp pn
    rw [RepositorySecret.generate_live_patch_of_list, reconcile]
    induction exp with
    | nil => rfl
    | cons a t ih =>
      simp only [List.map_cons, List.flatMap_cons, ih]
      rfl
  have h3 : ∀ (exp : List Environment) (parent : Repository),
      Environment.generate_live_patch_of_list exp [] parent ctx
        = exp.map (Patch.addEnv parent.name) := by
    intro exp parent
    rw [Environment.generate_live_patch_of_list, reconcile]
    induction exp with
    | nil => rfl
    | cons a t ih =>
      simp only [List.map_cons, List.flatMap_cons, ih]
      rfl
  have h4 : ∀ (exp : List BranchProtectionRule) (pn : String),
      BranchProtectionRule.generate_live_patch_of_list exp [] pn
        = exp.map (Patch.addBranchProtectionRule pn) := by
    intro exp pn
    rw [BranchProtectionRule.generate_live_patch_of_list, reconcile]
    induction exp with
    | nil => rfl
    | cons a t ih =>
      simp only [List.map_cons, List.flatMap_cons, ih]
      rfl
  show Patch.addRepo e ::
      (RepositoryWebhook.generate_live_patch_of_list e.webhooks [] e.name ++
       RepositorySecret.generate_live_patch_of_list e.secrets [] e.name ++
       Environment.generate_live_patch_of_list e.environments [] e ctx ++
       (if e.archived == V.bool false then
         BranchProtectionRule.generate_live_patch_of_list e.branch_protection_rules [] e.name
       else [])) = _
  rw [h1, h2, h3, h4]

/-- C3: during environment-list reconciliation, a current "github-pages"
environment is never proposed for removal when the parent repository hosts the
organization site (case-insensitive name match) or its GitHub Pages build type
is not "disabled"; every other unmatched current environment receives a REMOVE
patch. -/
theorem environment_github_pages_remove_exception
    (expected current : List Environment) (parent : Repository) (ctx : LivePatchContext) :
    ((parent.name.toLower = (ctx.org_id ++ ".github.io").toLower
        ∨ parent.gh_pages_build_type ≠ V.str "disabled") →
      ∀ c : Environment,
        Patch.removeEnv parent.name c
          ∈ Environment.generate_live_patch_of_list expected current parent ctx →
        c.name ≠ "github-pages")
    ∧ (∀ c ∈ current, (∀ x ∈ expected, x.name ≠ c.name) →
        ¬(c.name = "github-pages"
          ∧ (parent.name.toLower = (ctx.org_id ++ ".github.io").toLower
             ∨ parent.gh_pages_build_type ≠ V.str "disabled")) →
        Patch.removeEnv parent.name c
          ∈ Environment.generate_live_patch_of_list expected current parent ctx) := by
  constructor
  · intro hcond c hp hname
    rcases reconcile_mem _ _ _ _ _ current _ hp
      with ⟨e', _, hm⟩ | ⟨c', _, hskip, hm⟩ | ⟨e', c', _, _, hm⟩
    · rcases env_patch_shape hm
        with ⟨_, _, _, heq⟩ | ⟨_, hc, _, _⟩ | ⟨_, _, _, _, hc, _⟩
      · cases heq
      · simp at hc
      · simp at hc
    · have hcc : c' = c := by
        rcases env_patch_shape hm
          with ⟨_, _, hc, _⟩ | ⟨c'', _, hc, heq⟩ | ⟨_, _, _, hc, _, _⟩
        · simp at hc
        · cases heq
          cases hc
          rfl
        · simp at hc
      rw [hcc] at hskip
      have hs2 : ((parent.name.toLower == (ctx.org_id ++ ".github.io").toLower
            && c.name == "github-pages")
          || (c.name == "github-pages"
            && parent.gh_pages_build_type != V.str "disabled")) = true := by
        rcases hcond with h | h
        · simp [h, hname]
        · simp [hname, bne_iff_ne, h]
      rw [hs2] at hskip
      cases hskip
    · rcases env_patch_shape hm
        with ⟨_, _, hc, _⟩ | ⟨_, hc, _, _⟩ | ⟨_, _, _, _, _, heq⟩
      · simp at hc
      · simp at hc
      · cases heq
  · intro c hc hnomatch hnot
    refine reconcile_remove_mem _ _ _ _ _ current _ hc ?_ ?_ (by simp [Environment.generate_live_patch])
    · intro x hx
      simp only [List.mem_map] at hx
      obtain ⟨y, hy, heq⟩ := hx
      have h1 : y.name = c.name := congrArg Prod.fst heq
      have h2 : y = x := congrArg Prod.snd heq
      exact hnomatch y hy h1
    · by_cases hname : c.name = "github-pages"
      · have h2 : ¬(parent.name.toLower = (ctx.org_id ++ ".github.io").toLower
            ∨ parent.gh_pages_build_type ≠ V.str "disabled") := fun h => hnot ⟨hname, h⟩
        push_neg at h2
        obtain ⟨hsite, hbuild⟩ := h2
        simp [hname, hsite, hbuild]
      · simp [hname]

theorem environment_github_pages_remove_exception_witness :
    (("dev" : String) ≠ "github-pages")
    ∧ Patch.removeEnv repoSiteFixture.name envDev
        ∈ Environment.generate_live_patch_of_list [] [envDev] repoSiteFixture ctxEmpty := by
  have hmem :=
    (environment_github_pages_remove_exception [] [envDev] repoSiteFixture ctxEmpty).2
      envDev (by decide) (by simp) (fun h => absurd h.1 (by decide))
  exact ⟨(environment_github_pages_remove_exception [] [envDev] repoSiteFixture ctxEmpty).1
    (Or.inl rfl) envDev hmem, hmem⟩

/-- C6 counterexample: the key a is the name of both an expected repository
(with alias b) and a current repository, yet reconciliation emits a REMOVE
patch for the current repository named a — the expected repository was already
consumed by the current repository named b through its alias. -/
theorem key_conservation_counterexample :
    repoAliasExpected.name = "a" ∧ repoCurrentA.name = "a"
    ∧ Patch.removeRepo repoCurrentA
        ∈ Repository.generate_live_patch_of_list [repoAliasExpected]
            [repoCurrentB, repoCurrentA] ctxEmpty := by
  exact ⟨rfl, rfl, by decide⟩

theorem pairing_key {α : Type} (keyOf : α → String) {l : List α} {x : String} {e : α}
    (h : (x, e) ∈ l.map fun a => (keyOf a, a)) : x = keyOf e ∧ e ∈ l := by
  simp only [List.mem_map] at h
  obtain ⟨a, ha, heq⟩ := h
  have h1 : keyOf a = x := congrArg Prod.fst heq
  have h2 : a = e := congrArg Prod.snd heq
  subst h2
  exact ⟨h1.symm, ha⟩

theorem alookup_pairing_isSome {α : Type} (keyOf : α → String) {l : List α} {k : String}
    (h : k ∈ l.map keyOf) : (alookup (l.map fun a => (keyOf a, a)) k).isSome = true := by
  obtain ⟨a, ha, hk⟩ := List.mem_map.mp h
  cases hl : alookup (l.map fun a => (keyOf a, a)) k with
  | some _ => rfl
  | none =>
    exfalso
    refine (alookup_eq_none_iff _ _).mp hl a ?_
    rw [← hk]
    exact List.mem_map_of_mem _ ha

theorem alookup_unique {α : Type} {m : List (String × α)} {k : String} {v : α}
    (hmem : (k, v) ∈ m) (huni : ∀ x, (k, x) ∈ m → x = v) : alookup m k = some v := by
  induction m with
  | nil => simp at hmem
  | cons p t ih =>
    rw [alookup_cons]
    by_cases hp : (p.1 == k) = true
    · have h1 : p.1 = k := by simpa using hp
      simp only [hp, if_true, Option.some.injEq]
      refine huni p.2 ?_
      rw [← h1]
      exact List.mem_cons_self _ _
    · simp only [hp, Bool.false_eq_true, if_false]
      have h1 : p.1 ≠ k := by simpa using hp
      refine ih ?_ ?_
      · rcases List.mem_cons.mp hmem with heq | hmem2
        · exact absurd (congrArg Prod.fst heq).symm h1
        · exact hmem2
      · intro x hx
        exact huni x (List.mem_cons_of_mem _ hx)

/-- Key-conservation for the environment-list reconciliation: when k names
both an expected and a current environment and current names are unique, no
ADD and no REMOVE patch carries the key, and at most one CHANGE patch does. -/
theorem env_key_conservation (expected current : List Environment) (parent : Repository)
    (ctx : LivePatchContext) (k : String)
    (hcurN : (current.map Environment.name).Nodup)
    (hkexp : k ∈ expected.map Environment.name)
    (hkcur : k ∈ current.map Environment.name) :
    (∀ e, Patch.addEnv parent.name e
        ∈ Environment.generate_live_patch_of_list expected current parent ctx → e.name ≠ k)
    ∧ (∀ c, Patch.removeEnv parent.name c
        ∈ Environment.generate_live_patch_of_list expected current parent ctx → c.name ≠ k)
    ∧ (Environment.generate_live_patch_of_list expected current parent ctx).countP
        (Patch.isChangeEnvNamed k) ≤ 1 := by
  have hc0 : ∃ c ∈ current, c.name = k := by
    obtain ⟨c, hc, hk⟩ := List.mem_map.mp hkcur
    exact ⟨c, hc, hk⟩
  refine ⟨?_, ?_, ?_⟩
  · intro e0 hp hn0
    have hzero : (Environment.generate_live_patch_of_list expected current parent ctx).countP
        (Patch.isAddEnvNamed k) = 0 := by
      refine reconcile_countP_popped_zero (fun x : Environment => x.name) _ _ _ _
        (Patch.isAddEnvNamed k) k current (expected.map fun e => (e.name, e))
        ?_ ?_ ?_ (Or.inl hc0)
      · intro x e hx hxk
        have := (pairing_key _ hx).1
        subst this
        simp [Environment.generate_live_patch, List.countP_cons, Patch.isAddEnvNamed, hxk]
      · intro c _
        rfl
      · intro e c _
        show (if (Environment.get_difference e c).isEmpty then ([] : List Patch)
          else [Patch.changeEnv parent.name e c
            (Environment.get_difference e c)]).countP (Patch.isAddEnvNamed k) = 0
        split <;> rfl
    have := List.countP_eq_zero.mp hzero _ hp
    simp [Patch.isAddEnvNamed, hn0] at this
  · intro c0 hp hn0
    have hzero : (Environment.generate_live_patch_of_list expected current parent ctx).countP
        (Patch.isRemoveEnvNamed k) = 0 := by
      refine reconcile_countP_matched_zero (fun x : Environment => x.name) _ _ _ _
        (Patch.isRemoveEnvNamed k) k current (expected.map fun e => (e.name, e))
        ?_ ?_ ?_ (alookup_pairing_isSome (fun x : Environment => x.name) hkexp) hcurN
      · intro x e _
        rfl
      · intro c _ hck
        simp [Environment.generate_live_patch, List.countP_cons, Patch.isRemoveEnvNamed, hck]
      · intro e c _
        show (if (Environment.get_difference e c).isEmpty then ([] : List Patch)
          else [Patch.changeEnv parent.name e c
            (Environment.get_difference e c)]).countP (Patch.isRemoveEnvNamed k) = 0
        split <;> rfl
    have := List.countP_eq_zero.mp hzero _ hp
    simp [Patch.isRemoveEnvNamed, hn0] at this
  · refine reconcile_countP_le_one (fun x : Environment => x.name) _ _ _ _
      (Patch.isChangeEnvNamed k) k current (expected.map fun e => (e.name, e))
      ?_ ?_ ?_ ?_ hcurN
    · intro x e _
      rfl
    · intro c _
      rfl
    · intro e c _ hck
      show (if (Environment.get_difference e c).isEmpty then ([] : List Patch)
        else [Patch.changeEnv parent.name e c
          (Environment.get_difference e c)]).countP (Patch.isChangeEnvNamed k) = 0
      split
      · rfl
      · simp [List.countP_cons, Patch.isChangeEnvNamed, hck]
    · intro e c
      show (if (Environment.get_difference e c).isEmpty then ([] : List Patch)
        else [Patch.changeEnv parent.name e c
          (Environment.get_difference e c)]).countP (Patch.isChangeEnvNamed k) ≤ 1
      split
      · simp
      · simp [List.countP_cons]
        split <;> omega

theorem Repository.paircall_decomp (e c : Repository) (ctx : LivePatchContext) :
    Repository.generate_live_patch (some e) (some c) ctx =
      (if (Repository.compute_changes e c ctx).isEmpty then []
       else [Patch.changeRepo e (Repository.apply_signoff_override c ctx)
          (Repository.compute_changes e c ctx)]) ++
      Repository.paircall_children e c ctx := rfl

theorem Repository.paircall_children_not_repoLevel {e c : Repository}
    {ctx : LivePatchContext} {p : Patch} (hp : p ∈ Repository.paircall_children e c ctx) :
    p.isRepoLevel = false := by
  unfold Repository.paircall_children at hp
  rcases List.mem_append.mp hp with h | h
  rotate_left
  · split at h
    · rcases bpr_list_patch_shape h with ⟨_, rfl⟩ | ⟨_, rfl⟩ | ⟨_, _, _, rfl⟩ <;> rfl
    · simp at h
  rcases List.mem_append.mp h with h | h
  rotate_left
  · rcases env_list_patch_shape h with ⟨_, rfl⟩ | ⟨_, rfl⟩ | ⟨_, _, _, rfl⟩ <;> rfl
  rcases List.mem_append.mp h with h | h
  rotate_left
  · rcases secret_list_patch_shape h with ⟨_, rfl⟩ | ⟨_, rfl⟩ | ⟨_, _, _, rfl⟩ <;> rfl
  rcases List.mem_append.mp h with h | h
  · split at h
    · rcases workflows_patch_shape h with ⟨_, rfl⟩
      rfl
    · simp at h
  · rcases webhook_list_patch_shape h with ⟨_, rfl⟩ | ⟨_, rfl⟩ | ⟨_, _, _, rfl⟩ <;> rfl

theorem Patch.isChangeRepoNamed_false {k : String} {p : Patch}
    (h : p.isRepoLevel = false) : Patch.isChangeRepoNamed k p = false := by
  cases p <;> first | rfl | simp [Patch.isRepoLevel] at h

theorem Repository.addcall_countP_zero (k : String) (e : Repository) (ctx : LivePatchContext) :
    (Repository.generate_live_patch (some e) none ctx).countP (Patch.isChangeRepoNamed k)
      = 0 := by
  refine List.countP_eq_zero.mpr fun p hp => ?_
  rcases Repository.addcall_shape hp with rfl | hf
  · simp [Patch.isChangeRepoNamed]
  · simp [Patch.isChangeRepoNamed_false hf]

theorem Repository.paircall_countP_le_one (k : String) (e c : Repository)
    (ctx : LivePatchContext) :
    (Repository.generate_live_patch (some e) (some c) ctx).countP
      (Patch.isChangeRepoNamed k) ≤ 1 := by
  rw [Repository.paircall_decomp, List.countP_append]
  have hch : (Repository.paircall_children e c ctx).countP (Patch.isChangeRepoNamed k) = 0 :=
    List.countP_eq_zero.mpr fun p hp => by
      simp [Patch.isChangeRepoNamed_false (Repository.paircall_children_not_repoLevel hp)]
  rw [hch]
  have hif : (if (Repository.compute_changes e c ctx).isEmpty then ([] : List Patch)
      else [Patch.changeRepo e (Repository.apply_signoff_override c ctx)
        (Repository.compute_changes e c ctx)]).countP (Patch.isChangeRepoNamed k) ≤ 1 := by
    split
    · simp
    · simp only [List.countP_cons, List.countP_nil]
      split <;> omega
  omega

theorem Repository.paircall_countP_zero (k : String) (e c : Repository)
    (ctx : LivePatchContext) (hne : c.name ≠ k) :
    (Repository.generate_live_patch (some e) (some c) ctx).countP
      (Patch.isChangeRepoNamed k) = 0 := by
  rw [Repository.paircall_decomp, List.countP_append]
  have hch : (Repository.paircall_children e c ctx).countP (Patch.isChangeRepoNamed k) = 0 :=
    List.countP_eq_zero.mpr fun p hp => by
      simp [Patch.isChangeRepoNamed_false (Repository.paircall_children_not_repoLevel hp)]
  rw [hch]
  have hif : (if (Repository.compute_changes e c ctx).isEmpty then ([] : List Patch)
      else [Patch.changeRepo e (Repository.apply_signoff_override c ctx)
        (Repository.compute_changes e c ctx)]).countP (Patch.isChangeRepoNamed k) = 0 := by
    split
    · rfl
    · simp [List.countP_cons, Patch.isChangeRepoNamed,
        Repository.apply_signoff_override_name, hne]
  omega

theorem Repository.go_removeRepo_src (ctx : LivePatchContext) :
    ∀ (cur : List Repository) (byAll byName : List (String × Repository)) (r : Repository),
    Patch.removeRepo r ∈ Repository.generate_live_patch_of_list_go ctx cur byAll byName →
    ∃ c ∈ cur, r = c := by
  intro cur
  induction cur with
  | nil =>
    intro byAll byName r hr
    rw [Repository.generate_live_patch_of_list_go] at hr
    simp only [List.mem_flatMap] at hr
    obtain ⟨q, _, hq⟩ := hr
    exact absurd hq Repository.addcall_no_removeRepo
  | cons c rest ih =>
    intro byAll byName r hr
    rw [Repository.generate_live_patch_of_list_go] at hr
    cases hl : alookup byAll c.name with
    | none =>
      rw [hl] at hr
      rcases List.mem_append.mp hr with h | h
      · simp only [Repository.generate_live_patch, List.mem_singleton] at h
        injection h with h2
        exact ⟨c, List.mem_cons_self _ _, h2⟩
      · obtain ⟨c', hc', heq⟩ := ih _ _ r h
        exact ⟨c', List.mem_cons_of_mem _ hc', heq⟩
    | some e' =>
      rw [hl] at hr
      rcases List.mem_append.mp hr with h | h
      · exact absurd h Repository.pair_no_removeRepo
      · obtain ⟨c', hc', heq⟩ := ih _ _ r h
        exact ⟨c', List.mem_cons_of_mem _ hc', heq⟩

theorem Repository.go_addRepo_src (ctx : LivePatchContext) :
    ∀ (cur : List Repository) (byAll byName : List (String × Repository)) (r : Repository),
    Patch.addRepo r ∈ Repository.generate_live_patch_of_list_go ctx cur byAll byName →
    ∃ x, (x, r) ∈ byName := by
  intro cur
  induction cur with
  | nil =>
    intro byAll byName r hr
    rw [Repository.generate_live_patch_of_list_go] at hr
    simp only [List.mem_flatMap] at hr
    obtain ⟨q, hq, hp⟩ := hr
    have := Repository.addcall_addRepo hp
    subst this
    exact ⟨q.1, hq⟩
  | cons c rest ih =>
    intro byAll byName r hr
    rw [Repository.generate_live_patch_of_list_go] at hr
    cases hl : alookup byAll c.name with
    | none =>
      rw [hl] at hr
      rcases List.mem_append.mp hr with h | h
      · simp [Repository.generate_live_patch] at h
      · exact ih _ _ r h
    | some e' =>
      rw [hl] at hr
      rcases List.mem_append.mp hr with h | h
      · exact absurd h Repository.pair_no_addRepo
      · obtain ⟨x, hx⟩ := ih _ _ r h
        exact ⟨x, aerase_sub hx⟩

theorem Repository.go_no_remove_matched (ctx : LivePatchContext) (k : String) (e : Repository) :
    ∀ (cur : List Repository) (byAll byName : List (String × Repository)),
    alookup byAll k = some e →
    (∀ n r, (n, r) ∈ byAll → n ∈ r.get_all_names) →
    (∀ n r, (n, r) ∈ byAll → k ∈ r.get_all_names → r = e) →
    (∀ c ∈ cur, c.name ∈ e.get_all_names → c.name = k) →
    (cur.map Repository.name).Nodup →
    ∀ r, Patch.removeRepo r ∈ Repository.generate_live_patch_of_list_go ctx cur byAll byName →
    r.name ≠ k := by
  intro cur
  induction cur with
  | nil =>
    intro byAll byName _ _ _ _ _ r hr
    rw [Repository.generate_live_patch_of_list_go] at hr
    simp only [List.mem_flatMap] at hr
    obtain ⟨q, _, hq⟩ := hr
    exact absurd hq Repository.addcall_no_removeRepo
  | cons c rest ih =>
    intro byAll byName hA hsub hk hsteal hnodup r hr
    rw [List.map_cons] at hnodup
    have hnodup1 := (List.nodup_cons.mp hnodup).2
    have hnotin := (List.nodup_cons.mp hnodup).1
    rw [Repository.generate_live_patch_of_list_go] at hr
    by_cases hcn : c.name = k
    · have hl : alookup byAll c.name = some e := by rw [hcn]; exact hA
      rw [hl] at hr
      rcases List.mem_append.mp hr with h | h
      · exact absurd h Repository.pair_no_removeRepo
      · obtain ⟨c', hc', heq⟩ := Repository.go_removeRepo_src ctx rest _ _ r h
        subst heq
        intro hrk
        refine hnotin ?_
        rw [hcn, ← hrk]
        exact List.mem_map_of_mem _ hc'
    · cases hl : alookup byAll c.name with
      | none =>
        rw [hl] at hr
        rcases List.mem_append.mp hr with h | h
        · simp only [Repository.generate_live_patch, List.mem_singleton] at h
          injection h with h2
          rw [h2]
          exact hcn
        · exact ih _ _ hA hsub hk
            (fun x hx hxe => hsteal x (List.mem_cons_of_mem _ hx) hxe) hnodup1 r h
      | some e' =>
        rw [hl] at hr
        rcases List.mem_append.mp hr with h | h
        · exact absurd h Repository.pair_no_removeRepo
        · have hmem' := alookup_mem hl
          have hee : e' ≠ e := by
            intro heq
            subst heq
            exact hcn (hsteal c (List.mem_cons_self _ _) (hsub _ _ hmem'))
          have hkn : k ∉ e'.get_all_names := fun hkk => hee (hk _ _ hmem' hkk)
          refine ih _ _ ?_ ?_ ?_
            (fun x hx hxe => hsteal x (List.mem_cons_of_mem _ hx) hxe) hnodup1 r h
          · rw [alookup_foldl_aerase_ne e'.get_all_names byAll
              (fun n hn hnk => hkn (by rw [← hnk]; exact hn))]
            exact hA
          · intro n r2 hmem2
            exact hsub n r2 (foldl_aerase_sub _ _ hmem2)
          · intro n r2 hmem2 hk2
            exact hk _ _ (foldl_aerase_sub _ _ hmem2) hk2

theorem Repository.go_no_add_matched (ctx : LivePatchContext) (k : String) (e : Repository) :
    ∀ (cur : List Repository) (byAll byName : List (String × Repository)),
    alookup byAll k = some e →
    e.name = k →
    (∀ n r, (n, r) ∈ byAll → n ∈ r.get_all_names) →
    (∀ n r, (n, r) ∈ byAll → k ∈ r.get_all_names → r = e) →
    (∀ n r, (n, r) ∈ byName → n = r.name) →
    (∀ c ∈ cur, c.name ∈ e.get_all_names → c.name = k) →
    (∃ c ∈ cur, c.name = k) →
    ∀ r, Patch.addRepo r ∈ Repository.generate_live_patch_of_list_go ctx cur byAll byName →
    r.name ≠ k := by
  intro cur
  induction cur with
  | nil =>
    intro byAll byName _ _ _ _ _ _ hc0 r hr
    obtain ⟨c, hc, _⟩ := hc0
    simp at hc
  | cons c rest ih =>
    intro byAll byName hA he hsub hk hbn hsteal hc0 r hr
    rw [Repository.generate_live_patch_of_list_go] at hr
    by_cases hcn : c.name = k
    · have hl : alookup byAll c.name = some e := by rw [hcn]; exact hA
      rw [hl] at hr
      rcases List.mem_append.mp hr with h | h
      · exact absurd h Repository.pair_no_addRepo
      · obtain ⟨x, hx⟩ := Repository.go_addRepo_src ctx rest _ _ r h
        have hxk : x ≠ k := by
          have h2 := List.of_mem_filter hx
          simp only [bne_iff_ne, ne_eq] at h2
          rw [he] at h2
          exact h2
        have hxr : x = r.name := hbn x r (aerase_sub hx)
        rw [← hxr]
        exact hxk
    · cases hl : alookup byAll c.name with
      | none =>
        rw [hl] at hr
        rcases List.mem_append.mp hr with h | h
        · simp [Repository.generate_live_patch] at h
        · have hc0r : ∃ c0 ∈ rest, c0.name = k := by
            obtain ⟨c0, hc0m, hc0k⟩ := hc0
            rcases List.mem_cons.mp hc0m with rfl | hmem
            · exact absurd hc0k hcn
            · exact ⟨c0, hmem, hc0k⟩
          exact ih _ _ hA he hsub hk hbn
            (fun x hx hxe => hsteal x (List.mem_cons_of_mem _ hx) hxe) hc0r r h
      | some e' =>
        rw [hl] at hr
        rcases List.mem_append.mp hr with h | h
        · exact absurd h Repository.pair_no_addRepo
        · have hmem' := alookup_mem hl
          have hee : e' ≠ e := by
            intro heq
            subst heq
            exact hcn (hsteal c (List.mem_cons_self _ _) (hsub _ _ hmem'))
          have hkn : k ∉ e'.get_all_names := fun hkk => hee (hk _ _ hmem' hkk)
          have hc0r : ∃ c0 ∈ rest, c0.name = k := by
            obtain ⟨c0, hc0m, hc0k⟩ := hc0
            rcases List.mem_cons.mp hc0m with rfl | hmem
            · exact absurd hc0k hcn
            · exact ⟨c0, hmem, hc0k⟩
          refine ih _ _ ?_ he ?_ ?_ ?_
            (fun x hx hxe => hsteal x (List.mem_cons_of_mem _ hx) hxe) hc0r r h
          · rw [alookup_foldl_aerase_ne e'.get_all_names byAll
              (fun n hn hnk => hkn (by rw [← hnk]; exact hn))]
            exact hA
          · intro n r2 hmem2
            exact hsub n r2 (foldl_aerase_sub _ _ hmem2)
          · intro n r2 hmem2 hk2
            exact hk _ _ (foldl_aerase_sub _ _ hmem2) hk2
          · intro n r2 hmem2
            exact hbn n r2 (aerase_sub hmem2)

theorem Repository.go_changeRepo_count_zero (ctx : LivePatchContext) (k : String) :
    ∀ (cur : List Repository) (byAll byName : List (String × Repository)),
    (∀ c ∈ cur, c.name ≠ k) →
    (Repository.generate_live_patch_of_list_go ctx cur byAll byName).countP
      (Patch.isChangeRepoNamed k) = 0 := by
  intro cur
  induction cur with
  | nil =>
    intro byAll byName _
    rw [Repository.generate_live_patch_of_list_go]
    exact countP_flatMap_zero _ _ byName fun a _ => Repository.addcall_countP_zero k a.2 ctx
  | cons c rest ih =>
    intro byAll byName hno
    rw [Repository.generate_live_patch_of_list_go]
    cases hl : alookup byAll c.name with
    | none =>
      rw [List.countP_append,
        ih _ _ fun x hx => hno x (List.mem_cons_of_mem _ hx)]
      simp [Repository.generate_live_patch, List.countP_cons, Patch.isChangeRepoNamed]
    | some e' =>
      rw [List.countP_append,
        ih _ _ fun x hx => hno x (List.mem_cons_of_mem _ hx),
        Repository.paircall_countP_zero k e' c ctx (hno c (List.mem_cons_self _ _))]

theorem Repository.go_changeRepo_count_le_one (ctx : LivePatchContext) (k : String) :
    ∀ (cur : List Repository) (byAll byName : List (String × Repository)),
    (cur.map Repository.name).Nodup →
    (Repository.generate_live_patch_of_list_go ctx cur byAll byName).countP
      (Patch.isChangeRepoNamed k) ≤ 1 := by
  intro cur
  induction cur with
  | nil =>
    intro byAll byName _
    rw [Repository.generate_live_patch_of_list_go,
      countP_flatMap_zero _ _ byName fun a _ => Repository.addcall_countP_zero k a.2 ctx]
    omega
  | cons c rest ih =>
    intro byAll byName hnodup
    rw [List.map_cons] at hnodup
    have hnodup1 := (List.nodup_cons.mp hnodup).2
    have hnotin := (List.nodup_cons.mp hnodup).1
    rw [Repository.generate_live_patch_of_list_go]
    by_cases hcn : c.name = k
    · have hrest : ∀ x ∈ rest, x.name ≠ k := by
        intro x hx hxk
        exact hnotin (by rw [hcn, ← hxk]; exact List.mem_map_of_mem _ hx)
      cases hl : alookup byAll c.name with
      | none =>
        rw [List.countP_append, Repository.go_changeRepo_count_zero ctx k rest _ _ hrest]
        simp [Repository.generate_live_patch, List.countP_cons, Patch.isChangeRepoNamed]
      | some e' =>
        rw [List.countP_append, Repository.go_changeRepo_count_zero ctx k rest _ _ hrest]
        have := Repository.paircall_countP_le_one k e' c ctx
        omega
    · cases hl : alookup byAll c.name with
      | none =>
        rw [List.countP_append]
        have h2 := ih byAll byName hnodup1
        have h1 : (Repository.generate_live_patch none (some c) ctx).countP
            (Patch.isChangeRepoNamed k) = 0 := by
          simp [Repository.generate_live_patch, List.countP_cons, Patch.isChangeRepoNamed]
        omega
      | some e' =>
        rw [List.countP_append, Repository.paircall_countP_zero k e' c ctx hcn]
        have h2 := ih (e'.get_all_names.foldl aerase byAll) (aerase byName e'.name) hnodup1
        omega

/-- Key-conservation for the repository-list reconciliation: when k is the
name of the expected repository e and of a current repository, current names
are unique, no other expected repository carries k among its names, and no
current repository other than the one named k matches any of the names of e,
then no ADD and no REMOVE patch carries a repository named k and at most one
repository CHANGE patch has a current side named k. -/
theorem repo_key_conservation (expected current : List Repository) (ctx : LivePatchContext)
    (k : String) (e : Repository)
    (he_mem : e ∈ expected) (he_name : e.name = k)
    (huniq : ∀ r ∈ expected, k ∈ r.get_all_names → r = e)
    (hkcur : k ∈ current.map Repository.name)
    (hcurN : (current.map Repository.name).Nodup)
    (hsteal : ∀ c ∈ current, c.name ∈ e.get_all_names → c.name = k) :
    (∀ r, Patch.addRepo r
        ∈ Repository.generate_live_patch_of_list expected current ctx → r.name ≠ k)
    ∧ (∀ r, Patch.removeRepo r
        ∈ Repository.generate_live_patch_of_list expected current ctx → r.name ≠ k)
    ∧ (Repository.generate_live_patch_of_list expected current ctx).countP
        (Patch.isChangeRepoNamed k) ≤ 1 := by
  have hsub0 : ∀ n r, (n, r) ∈ Repository.multi_associate_by_key expected →
      n ∈ r.get_all_names ∧ r ∈ expected := by
    intro n r h
    simp only [Repository.multi_associate_by_key, List.mem_flatMap, List.mem_map] at h
    obtain ⟨r', hr', n', hn', heq⟩ := h
    have h1 : n' = n := congrArg Prod.fst heq
    have h2 : r' = r := congrArg Prod.snd heq
    subst h1
    subst h2
    exact ⟨hn', hr'⟩
  have hk0 : ∀ n r, (n, r) ∈ Repository.multi_associate_by_key expected →
      k ∈ r.get_all_names → r = e :=
    fun n r h hk2 => huniq r (hsub0 n r h).2 hk2
  have hke : (k, e) ∈ Repository.multi_associate_by_key expected := by
    simp only [Repository.multi_associate_by_key, List.mem_flatMap, List.mem_map]
    refine ⟨e, he_mem, k, ?_, rfl⟩
    rw [← he_name]
    exact List.mem_cons_self _ _
  have hA0 : alookup (Repository.multi_associate_by_key expected) k = some e :=
    alookup_unique hke fun x hx => hk0 k x hx (hsub0 k x hx).1
  have hbn0 : ∀ n r, (n, r) ∈ Repository.associate_by_key expected → n = r.name := by
    intro n r h
    exact (pairing_key Repository.name h).1
  have hc0 : ∃ c ∈ current, c.name = k := by
    obtain ⟨c, hc, hck⟩ := List.mem_map.mp hkcur
    exact ⟨c, hc, hck⟩
  refine ⟨?_, ?_, ?_⟩
  · exact Repository.go_no_add_matched ctx k e current _ _ hA0 he_name
      (fun n r h => (hsub0 n r h).1) hk0 hbn0 hsteal hc0
  · exact Repository.go_no_remove_matched ctx k e current _ _ hA0
      (fun n r h => (hsub0 n r h).1) hk0 hsteal hcurN
  · exact Repository.go_changeRepo_count_le_one ctx k current _ _ hcurN

/-- C6 amended: in one list-reconciliation pass, for a key naming entities on
both sides, exactly one of CHANGE or no-op is produced and never an ADD or a
REMOVE for that key — for environments this holds whenever current names are
unique; for repositories it additionally requires that the key belongs to only
one expected repository's identity set and that no other current repository
matches one of that expected repository's aliases (otherwise rename matching
consumes the expected entry and the same-named current repository receives a
REMOVE patch). -/
theorem list_reconciliation_key_conservation :
    (∀ (expected current : List Environment) (parent : Repository) (ctx : LivePatchContext)
        (k : String),
      (current.map Environment.name).Nodup →
      k ∈ expected.map Environment.name →
      k ∈ current.map Environment.name →
      (∀ e, Patch.addEnv parent.name e
          ∈ Environment.generate_live_patch_of_list expected current parent ctx → e.name ≠ k)
      ∧ (∀ c, Patch.removeEnv parent.name c
          ∈ Environment.generate_live_patch_of_list expected current parent ctx → c.name ≠ k)
      ∧ (Environment.generate_live_patch_of_list expected current parent ctx).countP
          (Patch.isChangeEnvNamed k) ≤ 1)
    ∧ (∀ (expected current : List Repository) (ctx : LivePatchContext) (k : String)
        (e : Repository),
      e ∈ expected → e.name = k →
      (∀ r ∈ expected, k ∈ r.get_all_names → r = e) →
      k ∈ current.map Repository.name →
      (current.map Repository.name).Nodup →
      (∀ c ∈ current, c.name ∈ e.get_all_names → c.name = k) →
      (∀ r, Patch.addRepo r
          ∈ Repository.generate_live_patch_of_list expected current ctx → r.name ≠ k)
      ∧ (∀ r, Patch.removeRepo r
          ∈ Repository.generate_live_patch_of_list expected current ctx → r.name ≠ k)
      ∧ (Repository.generate_live_patch_of_list expected current ctx).countP
          (Patch.isChangeRepoNamed k) ≤ 1) :=
  ⟨fun expected current parent ctx k h1 h2 h3 =>
    env_key_conservation expected current parent ctx k h1 h2 h3,
   fun expected current ctx k e h1 h2 h3 h4 h5 h6 =>
    repo_key_conservation expected current ctx k e h1 h2 h3 h4 h5 h6⟩

theorem list_reconciliation_key_conservation_witness :
    (Environment.generate_live_patch_of_list [envFixture2] [envFixture]
        repoAddFixture ctxEmpty).countP (Patch.isChangeEnvNamed "env") ≤ 1
    ∧ (Repository.generate_live_patch_of_list [repoAliasExpected] [repoCurrentA]
        ctxEmpty).countP (Patch.isChangeRepoNamed "a") ≤ 1 := by
  constructor
  · exact (list_reconciliation_key_conservation.1 [envFixture2] [envFixture]
      repoAddFixture ctxEmpty "env" (by decide) (by decide) (by decide)).2.2
  · exact (list_reconciliation_key_conservation.2 [repoAliasExpected] [repoCurrentA]
      ctxEmpty "a" repoAliasExpected (by decide) rfl (by decide) (by decide) (by decide)
      (by decide)).2.2

end Otterdog
